import Mathlib

/-!
Shallow embedding of the candidate-resolution engine of
`goodReadsFuzzyEnricher.py`, together with theorems settling the
specification claims about it.

Strings are modelled as `List Char`.  Character classes mirror the Python
regular-expression classes used by the source on the character set it is
exercised with: `\w` (alphanumeric or underscore) and `\s` (whitespace).
-/

namespace GoodreadsEnricher

abbrev Str := List Char

/-- Python regex `\w`: alphanumeric or underscore. -/
def isWordChar (c : Char) : Bool := c.isAlphanum || c == '_'

/-- Python regex `\s` / `str.isspace` on the ASCII range. -/
def isSpaceChar (c : Char) : Bool :=
  c == ' ' || c == '\t' || c == '\n' || c == '\r' || c == '\x0b' || c == '\x0c'

/-- Python `str.lower()`. -/
def lowerStr (s : Str) : Str := s.map Char.toLower

/-- Python `str.strip()`. -/
def trimStr (s : Str) : Str :=
  ((s.dropWhile isSpaceChar).reverse.dropWhile isSpaceChar).reverse

/-- The boilerplate keywords of the `re.sub` pattern in `normalize_title`
(line 35 of the source). -/
def keywords : List Str :=
  [String.toList "anniversary", String.toList "edition",
   String.toList "illustrated", String.toList "collector",
   String.toList "gift", String.toList "pack",
   String.toList "hardcover", String.toList "paperback",
   String.toList "kindle", String.toList "ebook"]

/-- Is the character at index `i` (if any) a word character? -/
def wordCharAt (s : Str) (i : Nat) : Bool :=
  match s[i]? with
  | some c => isWordChar c
  | none => false

/-- Does some boilerplate keyword match at index `i` of `line` with `\b`
word boundaries on both sides?  (`line` stands for one `\n`-free line of
the input; `.` in the Python pattern does not cross newlines.) -/
def kwHitAt (line : Str) (i : Nat) : Bool :=
  keywords.any fun kw =>
    kw.isPrefixOf (line.drop i) &&
    (i == 0 || !wordCharAt line (i - 1)) &&
    !wordCharAt line (i + kw.length)

/-- Index of the leftmost boundary-bounded keyword occurrence, if any. -/
def firstHit (line : Str) : Option Nat :=
  (List.range line.length).find? (kwHitAt line)

/-- Truncate one line at the leftmost keyword occurrence: the effect of
`re.sub(r'\b(anniversary|...)\b.*', '', line)` on a single line. -/
def truncLine (line : Str) : Str :=
  match firstHit line with
  | some i => line.take i
  | none => line

/-- Split on `'\n'`, keeping empty pieces (like `str.split('\n')`). -/
def splitNl : Str → List Str
  | [] => [[]]
  | c :: rest =>
    if c = '\n' then [] :: splitNl rest
    else
      match splitNl rest with
      | [] => [[c]]
      | t :: ts => (c :: t) :: ts

/-- `sep.join(parts)` for a one-character separator. -/
def joinSep (sep : Char) : List Str → Str
  | [] => []
  | [l] => l
  | l :: l2 :: ls => l ++ sep :: joinSep sep (l2 :: ls)

/-- Rejoin `'\n'`-separated lines (`'\n'.join`). -/
def joinNl : List Str → Str := joinSep '\n'

/-- The whole boilerplate-stripping `re.sub`: every line of the string is
truncated at its first word-bounded keyword occurrence (`.*` consumes to
the end of the line, and `re.sub` removes every such match). -/
def stripBoilerplate (s : Str) : Str := joinNl ((splitNl s).map truncLine)

/-- `re.sub(r'[^\w\s]', ' ', s)`: every character that is neither a word
character nor whitespace becomes a single space. -/
def punctToSpace (s : Str) : Str :=
  s.map fun c => if isWordChar c || isSpaceChar c then c else ' '

/-- Worker for `str.split()`: `cur` accumulates the current run of
non-whitespace characters in reverse. -/
def splitWsGo : Str → Str → List Str
  | cur, [] => if cur.isEmpty then [] else [cur.reverse]
  | cur, c :: rest =>
    if isSpaceChar c then
      if cur.isEmpty then splitWsGo [] rest
      else cur.reverse :: splitWsGo [] rest
    else splitWsGo (c :: cur) rest

/-- Python `str.split()` with no argument: maximal runs of
non-whitespace characters. -/
def splitWs (s : Str) : List Str := splitWsGo [] s

theorem splitWs_nil : splitWs [] = [] := rfl

theorem splitWs_cons_space {c : Char} (rest : Str) (h : isSpaceChar c = true) :
    splitWs (c :: rest) = splitWs rest := by
  rw [splitWs, splitWsGo, if_pos h]
  rfl

theorem splitWsGo_run :
    ∀ (rest cur : Str), cur ≠ [] →
    splitWsGo cur rest =
      (cur.reverse ++ rest.takeWhile (fun d => !isSpaceChar d)) ::
        splitWs (rest.dropWhile (fun d => !isSpaceChar d)) := by
  intro rest
  induction rest with
  | nil =>
    intro cur hcur
    rw [splitWsGo, if_neg (by simpa using hcur)]
    simp [List.takeWhile, List.dropWhile, splitWs_nil]
  | cons d rest2 ih =>
    intro cur hcur
    rw [splitWsGo]
    by_cases hd : isSpaceChar d = true
    · rw [if_pos hd, if_neg (by simpa using hcur)]
      rw [List.takeWhile_cons, if_neg (by simp [hd]),
        List.dropWhile_cons, if_neg (by simp [hd]), List.append_nil,
        splitWs_cons_space rest2 hd]
      rfl
    · rw [if_neg hd]
      rw [ih (d :: cur) (by simp)]
      rw [List.takeWhile_cons, if_pos (by simp [hd]),
        List.dropWhile_cons, if_pos (by simp [hd])]
      simp [List.append_assoc]

theorem splitWs_cons_nonspace {c : Char} (rest : Str)
    (h : isSpaceChar c = false) :
    splitWs (c :: rest) =
      (c :: rest.takeWhile (fun d => !isSpaceChar d)) ::
        splitWs (rest.dropWhile (fun d => !isSpaceChar d)) := by
  rw [splitWs, splitWsGo, if_neg (by simp [h])]
  rw [splitWsGo_run rest [c] (by simp)]
  rfl

/-- `' '.join(tokens)`. -/
def joinTokens : List Str → Str := joinSep ' '

/-- The body of `normalize_title` after the empty/NaN guard. -/
def normCore (s : Str) : Str :=
  joinTokens (splitWs (punctToSpace (stripBoilerplate (trimStr (lowerStr s)))))

/-- `normalize_title` (source lines 29-40) on a string input. -/
def normalize_title (s : Str) : Str :=
  if s = [] then [] else normCore s

/-- One Goodreads search result, as built by `search_goodreads`
(source lines 108-115). -/
structure Candidate where
  exact_title : Str
  author : Str
  publish_date : Str
  ratings_count : Nat
  goodreads_url : Str
  image_url : Str
deriving DecidableEq, Repr, Inhabited

/-- The five fields that `process_book_csv` writes into the output row
(source lines 314-318). -/
structure ChosenRecord where
  exact_title : Str
  author : Str
  publish_date : Str
  ratings_count : Nat
  goodreads_url : Str
deriving DecidableEq, Repr, Inhabited

def Candidate.toChosen (c : Candidate) : ChosenRecord :=
  ⟨c.exact_title, c.author, c.publish_date, c.ratings_count, c.goodreads_url⟩

/-- The all-empty sentinel record (source lines 271 and 312). -/
def emptyChosen : ChosenRecord := ⟨[], [], [], 0, []⟩

/-! ### The fetcher's retry loop (`search_goodreads`, source lines 55-123)

The network and HTML parsing are external; one loop iteration is modelled
by an oracle giving the outcome of that attempt.  `success cs` stands for
a response that parses into the candidate list `cs` (including the
no-results case `success []`), `parseFail` for any non-`RequestException`
exception inside the `try` block, and `netFail` for a
`requests.RequestException`.  The result pairs the Python return value
(`none` models Python's implicit `None` when the loop body never runs)
with the list of back-off sleep durations, in seconds, in order. -/

inductive AttemptOutcome where
  | netFail
  | parseFail
  | success (cs : List Candidate)

def searchLoop (outcomes : Nat → AttemptOutcome) (max_retries attempt : Nat) :
    Option (List Candidate) × List Nat :=
  if attempt < max_retries then
    match outcomes attempt with
    | .success cs => (some cs, [])
    | .parseFail => (some [], [])
    | .netFail =>
      if attempt < max_retries - 1 then
        let r := searchLoop outcomes max_retries (attempt + 1)
        (r.1, 2 ^ attempt :: r.2)
      else (some [], [])
  else (none, [])
termination_by max_retries - attempt

def search_goodreads (outcomes : Nat → AttemptOutcome) (max_retries : Nat) :
    Option (List Candidate) × List Nat :=
  searchLoop outcomes max_retries 0

/-! ### Decision policy (source lines 297-312) -/

/-- Insert index `i` into an index list, before the first index with a
strictly smaller key.  Inserting the indices `0, 1, 2, ...` in order
yields exactly the stable descending sort
`sorted(range(n), key=scores.__getitem__, reverse=True)` of line 298. -/
def insertDescIdx (key : Nat → ℚ) (i : Nat) : List Nat → List Nat
  | [] => [i]
  | j :: rest => if key j < key i then i :: j :: rest else j :: insertDescIdx key i rest

def sortIdxDesc (key : Nat → ℚ) (n : Nat) : List Nat :=
  (List.range n).foldl (fun acc i => insertDescIdx key i acc) []

inductive MultiDecision (α : Type) where
  | auto (c : α)
  | escalate (ordered : List α)
deriving DecidableEq, Repr

/-- The two-or-more-candidates decision block of `process_book_csv`
(source lines 297-312), as a function of the computed scores:
`sorted_idx`, `top_idx`, `top`, `second`, then auto-select when
`no_confirm or top >= auto_score_threshold or (top - second) >=
gap_threshold`, else escalate with the candidates in `sorted_idx` order. -/
def decisionFromScores {α : Type} [Inhabited α] (candidates : List α)
    (scores : List ℚ) (no_confirm : Bool) (autoT gapT : ℚ) : MultiDecision α :=
  let sorted_idx := sortIdxDesc (fun i => scores.getD i 0) scores.length
  let top_idx := sorted_idx.headD 0
  let top := scores.getD top_idx 0
  let second := if 1 < scores.length then scores.getD (sorted_idx.getD 1 0) 0 else 0
  if no_confirm || autoT ≤ top || gapT ≤ top - second then
    .auto (candidates.getD top_idx default)
  else
    .escalate (sorted_idx.map fun i => candidates.getD i default)

/-! ### `difflib.SequenceMatcher(None, a, b).ratio()` (used at source line 294)

The fallback scorer calls the standard library's Ratcliff/Obershelp
matcher.  We embed the slice it exercises: `__chain_b` with `junk=None`
and `autojunk=True` (characters occurring in more than `len(b)//100 + 1`
positions of a `b` of length at least 200 are dropped from the index;
the explicit-junk set `bjunk` stays empty because the source passes
`None`), `find_longest_match`, `get_matching_blocks`, and `ratio`. -/

/-- Ascending list of the positions of `c` in `b`. -/
def positionsOf (b : Str) (c : Char) : List Nat :=
  (List.range b.length).filter fun j => b.getD j ' ' == c

/-- The autojunk rule of `SequenceMatcher.__chain_b`. -/
def isPopular (b : Str) (c : Char) : Bool :=
  200 ≤ b.length && b.length / 100 + 1 < (positionsOf b c).length

/-- `self.b2j.get(c, [])` after `__chain_b`: positions of `c` in `b`,
empty for popular (autojunk) characters. -/
def b2j (b : Str) (c : Char) : List Nat :=
  if isPopular b c then [] else positionsOf b c

/-- `self.bjunk.__contains__`: always false, since the source constructs
`SequenceMatcher(None, a, b)`. -/
def isBJunk (_ : Char) : Bool := false

structure BestMatch where
  besti : Nat
  bestj : Nat
  bestsize : Nat
deriving DecidableEq, Repr, Inhabited

/-- Inner `for j in b2j.get(a[i], nothing)` loop of `find_longest_match`:
skips `j < blo`, breaks at `j >= bhi`, extends the chain ending at
`(i-1, j-1)` and tracks the strictly best match.  `k = j2len.get(j-1, 0) + 1`;
the `j = 0` case reads the absent key `-1`. -/
def innerLoop (j2len : List (Nat × Nat)) (blo bhi i : Nat) :
    List Nat → List (Nat × Nat) → BestMatch → List (Nat × Nat) × BestMatch
  | [], acc, best => (acc, best)
  | j :: js, acc, best =>
    if j < blo then innerLoop j2len blo bhi i js acc best
    else if bhi ≤ j then (acc, best)
    else
      let k := if j = 0 then 1 else (j2len.lookup (j - 1)).getD 0 + 1
      let best1 := if best.bestsize < k then ⟨i + 1 - k, j + 1 - k, k⟩ else best
      innerLoop j2len blo bhi i js ((j, k) :: acc) best1

/-- Outer `for i in range(alo, ahi)` loop of `find_longest_match`. -/
def dpLoop (a b : Str) (blo bhi : Nat) :
    List Nat → List (Nat × Nat) → BestMatch → BestMatch
  | [], _, best => best
  | i :: is, j2len, best =>
    let r := innerLoop j2len blo bhi i (b2j b (a.getD i ' ')) [] best
    dpLoop a b blo bhi is r.1 r.2

/-- The two backward `while` extension loops of `find_longest_match`
(`wantJunk = false` for the non-junk one, `true` for the junk one). -/
def extendLo (a b : Str) (alo blo : Nat) (wantJunk : Bool) :
    Nat → Nat → Nat → Nat × Nat × Nat
  | besti, bestj, bestsize =>
    if h : alo < besti ∧ blo < bestj ∧
        isBJunk (b.getD (bestj - 1) ' ') = wantJunk ∧
        a.getD (besti - 1) ' ' = b.getD (bestj - 1) ' ' then
      extendLo a b alo blo wantJunk (besti - 1) (bestj - 1) (bestsize + 1)
    else (besti, bestj, bestsize)
termination_by besti _ _ => besti

/-- The two forward `while` extension loops of `find_longest_match`. -/
def extendHi (a b : Str) (ahi bhi : Nat) (wantJunk : Bool) (besti bestj : Nat) :
    Nat → Nat
  | bestsize =>
    if h : besti + bestsize < ahi ∧ bestj + bestsize < bhi ∧
        isBJunk (b.getD (bestj + bestsize) ' ') = wantJunk ∧
        a.getD (besti + bestsize) ' ' = b.getD (bestj + bestsize) ' ' then
      extendHi a b ahi bhi wantJunk besti bestj (bestsize + 1)
    else bestsize
termination_by bestsize => ahi - (besti + bestsize)
decreasing_by omega

/-- `SequenceMatcher.find_longest_match(alo, ahi, blo, bhi)`. -/
def findLongestMatch (a b : Str) (alo ahi blo bhi : Nat) : BestMatch :=
  let best0 := dpLoop a b blo bhi (List.range' alo (ahi - alo)) [] ⟨alo, blo, 0⟩
  let e1 := extendLo a b alo blo false best0.besti best0.bestj best0.bestsize
  let s2 := extendHi a b ahi bhi false e1.1 e1.2.1 e1.2.2
  let e3 := extendLo a b alo blo true e1.1 e1.2.1 s2
  let s4 := extendHi a b ahi bhi true e3.1 e3.2.1 e3.2.2
  ⟨e3.1, e3.2.1, s4⟩

/-- Invariant of the chain-length dictionary `j2len`: keys lie in
`[blo, bhi)` and values are bounded by the key offset and the step
count. -/
def EntryInv (blo bhi M : Nat) (p : Nat × Nat) : Prop :=
  blo ≤ p.1 ∧ p.1 < bhi ∧ p.2 ≤ p.1 + 1 - blo ∧ p.2 ≤ M

/-- Invariant of the running best match for the window
`[alo, ahi) × [blo, bhi)`. -/
def BestInv (alo ahi blo bhi : Nat) (m : BestMatch) : Prop :=
  (m.bestsize = 0 ∧ m.besti = alo ∧ m.bestj = blo) ∨
  (1 ≤ m.bestsize ∧ alo ≤ m.besti ∧ blo ≤ m.bestj ∧
    m.besti + m.bestsize ≤ ahi ∧ m.bestj + m.bestsize ≤ bhi)

theorem lookupMem : ∀ (l : List (Nat × Nat)) (k v : Nat),
    l.lookup k = some v → (k, v) ∈ l := by
  intro l
  induction l with
  | nil => intro k v h; simp [List.lookup] at h
  | cons p rest ih =>
    intro k v h
    cases p with
    | mk a bv =>
      rw [List.lookup] at h
      split at h
      · rename_i heq
        have hk : k = a := by simpa using heq
        have hv : bv = v := by simpa using h
        subst hk; subst hv
        exact List.mem_cons_self _ _
      · exact List.mem_cons_of_mem _ (ih k v h)

theorem innerLoop_inv (alo ahi blo bhi i : Nat) (hi1 : alo ≤ i) (hi2 : i < ahi) :
    ∀ (js : List Nat) (j2len acc : List (Nat × Nat)) (best : BestMatch),
    (∀ p ∈ j2len, EntryInv blo bhi (i - alo) p) →
    (∀ p ∈ acc, EntryInv blo bhi (i + 1 - alo) p) →
    BestInv alo ahi blo bhi best →
    (∀ p ∈ (innerLoop j2len blo bhi i js acc best).1,
        EntryInv blo bhi (i + 1 - alo) p) ∧
    BestInv alo ahi blo bhi (innerLoop j2len blo bhi i js acc best).2 := by
  intro js
  induction js with
  | nil => intro j2len acc best _ ha hb; rw [innerLoop]; exact ⟨ha, hb⟩
  | cons j js ih =>
    intro j2len acc best hd ha hb
    rw [innerLoop]
    by_cases h1 : j < blo
    · rw [if_pos h1]; exact ih j2len acc best hd ha hb
    · rw [if_neg h1]
      by_cases h2 : bhi ≤ j
      · rw [if_pos h2]; exact ⟨ha, hb⟩
      · rw [if_neg h2]
        simp only []
        set k := if j = 0 then 1 else (j2len.lookup (j - 1)).getD 0 + 1 with hkdef
        have hblo : blo ≤ j := by omega
        have hjbhi : j < bhi := by omega
        have hk1 : 1 ≤ k := by
          rw [hkdef]; split
          · exact le_refl 1
          · omega
        have hkle : k ≤ j + 1 - blo ∧ k ≤ i + 1 - alo := by
          rw [hkdef]; split
          · constructor <;> omega
          · cases hl : (j2len.lookup (j - 1)) with
            | none => simp only [hl, Option.getD_none]; constructor <;> omega
            | some v =>
              have hv := hd _ (lookupMem _ _ _ hl)
              simp only [EntryInv] at hv
              simp only [hl, Option.getD_some]
              rename_i hj0
              constructor <;> omega
        have hbest1 : BestInv alo ahi blo bhi
            (if best.bestsize < k then ⟨i + 1 - k, j + 1 - k, k⟩ else best) := by
          split
          · refine Or.inr ⟨hk1, ?_, ?_, ?_, ?_⟩ <;> dsimp only <;> omega
          · exact hb
        refine ih j2len ((j, k) :: acc) _ hd ?_ hbest1
        intro p hp
        rcases List.mem_cons.mp hp with hpe | hpm
        · subst hpe
          exact ⟨hblo, hjbhi, hkle.1, hkle.2⟩
        · exact ha p hpm

theorem dpLoop_inv (a b : Str) (alo ahi blo bhi : Nat) :
    ∀ (n i : Nat) (j2len : List (Nat × Nat)) (best : BestMatch),
    alo ≤ i → n ≤ ahi - i →
    (∀ p ∈ j2len, EntryInv blo bhi (i - alo) p) →
    BestInv alo ahi blo bhi best →
    BestInv alo ahi blo bhi (dpLoop a b blo bhi (List.range' i n) j2len best) := by
  intro n
  induction n with
  | zero => intro i j2len best _ _ _ hb; rw [List.range']; rw [dpLoop]; exact hb
  | succ n ih =>
    intro i j2len best h1 h2 hd hb
    rw [List.range'_succ, dpLoop]
    have hi2 : i < ahi := by omega
    have H := innerLoop_inv alo ahi blo bhi i h1 hi2
      (b2j b (a.getD i ' ')) j2len [] best hd (by intro p hp; simp at hp) hb
    exact ih (i + 1) _ _ (by omega) (by omega) (fun p hp => H.1 p hp) H.2

theorem extendLo_inv (a b : Str) (alo ahi blo bhi : Nat) (wj : Bool) :
    ∀ (besti bestj bestsize : Nat),
    BestInv alo ahi blo bhi ⟨besti, bestj, bestsize⟩ →
    BestInv alo ahi blo bhi
      ⟨(extendLo a b alo blo wj besti bestj bestsize).1,
       (extendLo a b alo blo wj besti bestj bestsize).2.1,
       (extendLo a b alo blo wj besti bestj bestsize).2.2⟩ := by
  intro besti
  induction besti using Nat.strong_induction_on with
  | _ besti ih =>
    intro bestj bestsize hb
    simp only [BestInv] at hb ⊢
    rw [extendLo]
    split
    · rename_i hcond
      have := ih (besti - 1) (by omega) (bestj - 1) (bestsize + 1) ?_
      · simpa [BestInv] using this
      · simp only [BestInv]
        rcases hb with ⟨_, h2, _⟩ | ⟨_, h2, h3, h4, h5⟩
        · omega
        · exact Or.inr ⟨by omega, by omega, by omega, by omega, by omega⟩
    · exact hb

theorem extendHi_inv (a b : Str) (alo ahi blo bhi : Nat) (wj : Bool)
    (besti bestj : Nat) :
    ∀ (d bestsize : Nat), ahi - (besti + bestsize) ≤ d →
    BestInv alo ahi blo bhi ⟨besti, bestj, bestsize⟩ →
    BestInv alo ahi blo bhi
      ⟨besti, bestj, extendHi a b ahi bhi wj besti bestj bestsize⟩ := by
  intro d
  induction d with
  | zero =>
    intro bestsize hda hb
    simp only [BestInv] at hb ⊢
    rw [extendHi]
    split
    · rename_i hcond; omega
    · exact hb
  | succ d ih =>
    intro bestsize hda hb
    simp only [BestInv] at hb ⊢
    rw [extendHi]
    split
    · rename_i hcond
      have := ih (bestsize + 1) (by omega) ?_
      · simpa [BestInv] using this
      · simp only [BestInv]
        rcases hb with ⟨h1, h2, h3⟩ | ⟨h1, h2, h3, h4, h5⟩
        · exact Or.inr ⟨by omega, by omega, by omega, by omega, by omega⟩
        · exact Or.inr ⟨by omega, h2, h3, by omega, by omega⟩
    · exact hb

theorem flm_sound (a b : Str) (alo ahi blo bhi : Nat) :
    BestInv alo ahi blo bhi (findLongestMatch a b alo ahi blo bhi) := by
  unfold findLongestMatch
  have h0 : BestInv alo ahi blo bhi ⟨alo, blo, 0⟩ := Or.inl ⟨rfl, rfl, rfl⟩
  have h1 := dpLoop_inv a b alo ahi blo bhi (ahi - alo) alo [] ⟨alo, blo, 0⟩
    le_rfl (by omega) (by intro p hp; simp at hp) h0
  set m0 := dpLoop a b blo bhi (List.range' alo (ahi - alo)) [] ⟨alo, blo, 0⟩
  have h2 := extendLo_inv a b alo ahi blo bhi false m0.besti m0.bestj m0.bestsize h1
  set e1 := extendLo a b alo blo false m0.besti m0.bestj m0.bestsize
  have h3 := extendHi_inv a b alo ahi blo bhi false e1.1 e1.2.1
    (ahi - (e1.1 + e1.2.2)) e1.2.2 le_rfl h2
  set s2 := extendHi a b ahi bhi false e1.1 e1.2.1 e1.2.2
  have h4 := extendLo_inv a b alo ahi blo bhi true e1.1 e1.2.1 s2 h3
  set e3 := extendLo a b alo blo true e1.1 e1.2.1 s2
  exact extendHi_inv a b alo ahi blo bhi true e3.1 e3.2.1
    (ahi - (e3.1 + e3.2.2)) e3.2.2 le_rfl h4

/-- Contribution of a queue of `(alo, ahi, blo, bhi)` windows to the
termination measure of the `get_matching_blocks` work loop. -/
def rectMeasure (q : List (Nat × Nat × Nat × Nat)) : Nat :=
  (q.map fun r => 2 * (r.2.1 - r.1) + 1).sum

/-- The `while queue:` loop of `SequenceMatcher.get_matching_blocks`;
`queue.pop()` takes the most recently pushed window, and each found
match is recorded and recursed around. -/
def matchingBlocksGo (a b : Str) :
    List (Nat × Nat × Nat × Nat) → List BestMatch → List BestMatch
  | [], acc => acc
  | (alo, ahi, blo, bhi) :: queue, acc =>
    let m := findLongestMatch a b alo ahi blo bhi
    if h0 : m.bestsize = 0 then matchingBlocksGo a b queue acc
    else
      let q1 := if alo < m.besti ∧ blo < m.bestj then
          (alo, m.besti, blo, m.bestj) :: queue else queue
      let q2 := if m.besti + m.bestsize < ahi ∧ m.bestj + m.bestsize < bhi then
          (m.besti + m.bestsize, ahi, m.bestj + m.bestsize, bhi) :: q1 else q1
      matchingBlocksGo a b q2 (m :: acc)
termination_by q _ => rectMeasure q
decreasing_by
  · simp only [rectMeasure, List.map_cons, List.sum_cons]; omega
  · have hs := flm_sound a b alo ahi blo bhi
    rcases hs with ⟨hz, _, _⟩ | ⟨h1, h2, h3, h4, h5⟩
    · exact absurd hz h0
    · split <;> split <;>
        simp only [rectMeasure, List.map_cons, List.sum_cons] <;> omega

/-- Strict lexicographic order on `(i, j, k)` triples, as Python tuple
comparison. -/
def blockLt (x y : Nat × Nat × Nat) : Bool :=
  decide (x.1 < y.1) ||
    (x.1 == y.1 && (decide (x.2.1 < y.2.1) ||
      (x.2.1 == y.2.1 && decide (x.2.2 < y.2.2))))

/-- Stable insertion for `matching_blocks.sort()`. -/
def insertBlock (m : Nat × Nat × Nat) :
    List (Nat × Nat × Nat) → List (Nat × Nat × Nat)
  | [] => [m]
  | x :: rest => if blockLt m x then m :: x :: rest else x :: insertBlock m rest

def sortBlocks (l : List (Nat × Nat × Nat)) : List (Nat × Nat × Nat) :=
  l.foldl (fun acc m => insertBlock m acc) []

/-- The adjacent-block merging pass of `get_matching_blocks`, started
from the zero triple `i1 = j1 = k1 = 0`; zero-length running blocks are
not emitted. -/
def mergeAdjGo : Nat × Nat × Nat → List (Nat × Nat × Nat) → List (Nat × Nat × Nat)
  | (i1, j1, k1), [] => if k1 ≠ 0 then [(i1, j1, k1)] else []
  | (i1, j1, k1), (i2, j2, k2) :: rest =>
    if i1 + k1 = i2 ∧ j1 + k1 = j2 then mergeAdjGo (i1, j1, k1 + k2) rest
    else if k1 ≠ 0 then (i1, j1, k1) :: mergeAdjGo (i2, j2, k2) rest
    else mergeAdjGo (i2, j2, k2) rest

/-- `SequenceMatcher.get_matching_blocks()`: recorded matches, sorted,
adjacent blocks merged, with the `(la, lb, 0)` sentinel appended. -/
def getMatchingBlocks (a b : Str) : List (Nat × Nat × Nat) :=
  let raw := (matchingBlocksGo a b [(0, a.length, 0, b.length)] []).map
      fun m => (m.besti, m.bestj, m.bestsize)
  mergeAdjGo (0, 0, 0) (sortBlocks raw) ++ [(a.length, b.length, 0)]

/-- `SequenceMatcher.ratio()`: `2 * M / T`, or `1.0` when both sequences
are empty (`_calculate_ratio`). -/
def ratioQ (a b : Str) : ℚ :=
  let matchSum := ((getMatchingBlocks a b).map fun t => t.2.2).sum
  if a.length + b.length ≠ 0 then
    2 * (matchSum : ℚ) / ((a.length : ℚ) + (b.length : ℚ))
  else 1

/-- The fallback similarity of source lines 286-295, applied to the
already-normalized query and title: `0.6 * jaccard + 0.4 * ratio`. -/
def fallbackScore (norm_query nt : Str) : ℚ :=
  let q_tokens := (splitWs norm_query).toFinset
  let t_tokens := (splitWs nt).toFinset
  let jacc : ℚ :=
    if q_tokens ≠ ∅ ∨ t_tokens ≠ ∅ then
      if (q_tokens ∪ t_tokens).card ≠ 0 then
        ((q_tokens ∩ t_tokens).card : ℚ) / ((q_tokens ∪ t_tokens).card : ℚ)
      else 0
    else 0
  let seq := ratioQ norm_query nt
  6 / 10 * jacc + 4 / 10 * seq

/-- Per-row candidate resolution (source lines 269-312): the value bound
to `chosen` for one non-skipped row, given the fetched candidates, the
manual-resolution oracle (`ask_user_choice_with_images`, `none` = the
user chose Skip/Cancel), the flags and thresholds, and the similarity
scorer in use (rapidfuzz `token_set_ratio / 100` or the fallback). -/
def rowChosen (book_name : Str) (candidates : List Candidate)
    (resolve : List Candidate → Option Candidate)
    (no_confirm : Bool) (autoT gapT : ℚ)
    (scoreFn : Str → Str → ℚ) : ChosenRecord :=
  match candidates with
  | [] => emptyChosen
  | [c] => c.toChosen
  | c₁ :: c₂ :: rest =>
    let cands := c₁ :: c₂ :: rest
    let norm_query := normalize_title book_name
    let scores := cands.map fun c => scoreFn norm_query (normalize_title c.exact_title)
    match decisionFromScores cands scores no_confirm autoT gapT with
    | .auto c => c.toChosen
    | .escalate ordered =>
      match resolve ordered with
      | some c => c.toChosen
      | none => emptyChosen

/-! ### The dataframe model (`process_book_csv`, source lines 241-326)

A table is a header naming the columns plus positional rows.  pandas
column assignment `df[c] = v` overwrites an existing column in place and
otherwise appends a new column at the end; `df.loc[i, c] = v` writes one
cell of an existing column. -/

inductive Value where
  | vstr (s : Str)
  | vnat (n : Nat)
  | vnan
deriving DecidableEq, Repr

structure Table where
  header : List Str
  rows : List (List Value)
deriving DecidableEq, Repr

def colIdx (t : Table) (c : Str) : Option Nat := t.header.findIdx? (· == c)

/-- `df[c] = v` with a scalar `v`. -/
def assignColumn (t : Table) (c : Str) (v : Value) : Table :=
  match colIdx t c with
  | some i => ⟨t.header, t.rows.map fun r => r.set i v⟩
  | none => ⟨t.header ++ [c], t.rows.map fun r => r ++ [v]⟩

/-- `df.loc[i, c] = v`.  The enrichment loop only ever writes columns
created before it runs, so the missing-column case is never reached. -/
def setCell (t : Table) (i : Nat) (c : Str) (v : Value) : Table :=
  match colIdx t c with
  | some ci => ⟨t.header, t.rows.set i ((t.rows.getD i []).set ci v)⟩
  | none => t

def getCell (t : Table) (i : Nat) (c : Str) : Value :=
  match colIdx t c with
  | some ci => (t.rows.getD i []).getD ci Value.vnan
  | none => Value.vnan

/-- The skip test of source line 266: `pd.isna(book_name) or book_name == ''`. -/
def isNaOrEmpty : Value → Bool
  | .vnan => true
  | .vstr s => s.isEmpty
  | .vnat _ => false

/-- `str(x)` on the values a title cell can hold. -/
def valStr : Value → Str
  | .vstr s => s
  | .vnat n => (toString n).toList
  | .vnan => String.toList "nan"

/-- The five enrichment columns and their initialisation values
(source lines 257-261, in assignment order). -/
def enrichCols : List (Str × Value) :=
  [(String.toList "exact_book_name", .vstr []),
   (String.toList "author", .vstr []),
   (String.toList "publish_date", .vstr []),
   (String.toList "ratings_count", .vnat 0),
   (String.toList "goodreads_link", .vstr [])]

def initColumns (t : Table) : Table :=
  enrichCols.foldl (fun acc p => assignColumn acc p.1 p.2) t

/-- One iteration of the enrichment loop (source lines 264-319) for row
`i`: skip NaN/empty titles, otherwise resolve and write the five cells. -/
def enrichRow (t : Table) (book_column : Str) (i : Nat)
    (candidates : List Candidate) (resolve : List Candidate → Option Candidate)
    (no_confirm : Bool) (autoT gapT : ℚ) (scoreFn : Str → Str → ℚ) : Table :=
  let bv := getCell t i book_column
  if isNaOrEmpty bv then t
  else
    let chosen := rowChosen (valStr bv) candidates resolve no_confirm autoT gapT scoreFn
    let t1 := setCell t i (String.toList "exact_book_name") (.vstr chosen.exact_title)
    let t2 := setCell t1 i (String.toList "author") (.vstr chosen.author)
    let t3 := setCell t2 i (String.toList "publish_date") (.vstr chosen.publish_date)
    let t4 := setCell t3 i (String.toList "ratings_count") (.vnat chosen.ratings_count)
    setCell t4 i (String.toList "goodreads_link") (.vstr chosen.goodreads_url)

/-- `process_book_csv` on an already-read table.  `fetchO i` is what
`search_goodreads` returns for row `i`, `resolveO i` the manual dialog
for row `i`.  The error case is the `ValueError` of source line 256. -/
def process_book_csv (df : Table) (book_column : Str)
    (fetchO : Nat → List Candidate)
    (resolveO : Nat → List Candidate → Option Candidate)
    (no_confirm : Bool) (autoT gapT : ℚ) (scoreFn : Str → Str → ℚ) :
    Except Unit Table :=
  if colIdx df book_column = none then .error ()
  else
    let t0 := initColumns df
    .ok ((List.range t0.rows.length).foldl
      (fun acc i =>
        enrichRow acc book_column i (fetchO i) (resolveO i) no_confirm autoT gapT scoreFn)
      t0)

/-! ### Structure of the normalizer's output -/

theorem toLower_toLower (c : Char) : Char.toLower (Char.toLower c) = Char.toLower c := by
  have key : ∀ n : Nat, n.isValidChar → (Char.ofNat n).toNat = n := by
    intro n h
    simp only [Char.ofNat, dif_pos h, Char.ofNatAux, Char.toNat, UInt32.toNat,
      BitVec.toNat_ofNatLt]
  unfold Char.toLower
  by_cases h : c.toNat ≥ 65 ∧ c.toNat ≤ 90
  · rw [if_pos h]
    have hv : (c.toNat + 32).isValidChar := Or.inl (by omega)
    have h2 := key _ hv
    rw [if_neg (by omega)]
  · rw [if_neg h, if_neg h]

theorem space_not_word {c : Char} (h : isSpaceChar c = true) : isWordChar c = false := by
  simp only [isSpaceChar, Bool.or_eq_true, beq_iff_eq] at h
  rcases h with ((((h | h) | h) | h) | h) | h <;> subst h <;> decide

theorem word_not_space {c : Char} (h : isWordChar c = true) : isSpaceChar c = false := by
  cases hs : isSpaceChar c
  · rfl
  · rw [space_not_word hs] at h; cases h

theorem splitWs_token : ∀ (n : Nat) (s : Str), s.length ≤ n →
    ∀ t ∈ splitWs s, t ≠ [] ∧ ∀ c ∈ t, c ∈ s ∧ isSpaceChar c = false := by
  intro n
  induction n with
  | zero =>
    intro s hs t ht
    have : s = [] := List.length_eq_zero.mp (Nat.le_zero.mp hs)
    subst this
    rw [splitWs_nil] at ht
    cases ht
  | succ n ih =>
    intro s hs t ht
    match s with
    | [] => rw [splitWs_nil] at ht; cases ht
    | c :: rest =>
      by_cases hc : isSpaceChar c = true
      · rw [splitWs_cons_space rest hc] at ht
        have := ih rest (by simpa using Nat.le_of_succ_le_succ hs) t ht
        exact ⟨this.1, fun d hd => ⟨List.mem_cons_of_mem _ (this.2 d hd).1, (this.2 d hd).2⟩⟩
      · rw [splitWs_cons_nonspace rest (by simpa using hc)] at ht
        rcases List.mem_cons.mp ht with h1 | h2
        · subst h1
          refine ⟨by simp, ?_⟩
          intro d hd
          rcases List.mem_cons.mp hd with h3 | h4
          · subst h3
            exact ⟨List.mem_cons_self _ _, Bool.not_eq_true _ ▸ hc⟩
          · have hmem : d ∈ rest :=
              (List.takeWhile_sublist (fun d => !isSpaceChar d)).mem h4
            have hpred := List.mem_takeWhile_imp h4
            simp only [Bool.not_eq_true'] at hpred
            exact ⟨List.mem_cons_of_mem _ hmem, hpred⟩
        · have hlen : (rest.dropWhile (fun d => !isSpaceChar d)).length ≤ n := by
            have := (rest.dropWhile_sublist (fun d => !isSpaceChar d)).length_le
            simp only [List.length_cons] at hs
            omega
          have := ih _ hlen t h2
          refine ⟨this.1, fun d hd => ?_⟩
          have hmem : d ∈ rest :=
            (rest.dropWhile_sublist (fun d => !isSpaceChar d)).mem (this.2 d hd).1
          exact ⟨List.mem_cons_of_mem _ hmem, (this.2 d hd).2⟩

theorem splitWs_tokens {s : Str} :
    ∀ t ∈ splitWs s, t ≠ [] ∧ ∀ c ∈ t, c ∈ s ∧ isSpaceChar c = false :=
  splitWs_token s.length s le_rfl

theorem takeWhile_all_append {p : Char → Bool} {y : Char} (hy : p y = false) :
    ∀ (xs ys : Str), (∀ c ∈ xs, p c = true) →
    (xs ++ y :: ys).takeWhile p = xs ∧ (xs ++ y :: ys).dropWhile p = y :: ys := by
  intro xs
  induction xs with
  | nil =>
    intro ys _
    simp [List.takeWhile, List.dropWhile, hy]
  | cons c cs ih =>
    intro ys h
    have hc : p c = true := h c (List.mem_cons_self _ _)
    have := ih ys (fun d hd => h d (List.mem_cons_of_mem _ hd))
    simp only [List.cons_append, List.takeWhile_cons, List.dropWhile_cons, hc, if_pos]
    exact ⟨by rw [this.1], by rw [this.2]⟩

theorem splitWs_single {t : Str} (ht : t ≠ [])
    (hc : ∀ c ∈ t, isSpaceChar c = false) : splitWs t = [t] := by
  match t, ht with
  | c :: cs, _ =>
    have hc0 : isSpaceChar c = false := hc c (List.mem_cons_self _ _)
    rw [splitWs_cons_nonspace cs hc0]
    have h1 : cs.takeWhile (fun d => !isSpaceChar d) = cs :=
      List.takeWhile_eq_self_iff.mpr (fun d hd => by
        simp [hc d (List.mem_cons_of_mem _ hd)])
    have h2 : cs.dropWhile (fun d => !isSpaceChar d) = [] := by
      rw [List.dropWhile_eq_nil_iff]
      intro d hd
      simp [hc d (List.mem_cons_of_mem _ hd)]
    rw [h1, h2, splitWs_nil]

theorem splitWs_joinTokens :
    ∀ (ts : List Str), (∀ t ∈ ts, t ≠ [] ∧ ∀ c ∈ t, isSpaceChar c = false) →
    splitWs (joinTokens ts) = ts := by
  intro ts
  induction ts with
  | nil => intro _; simp only [joinTokens]; rw [joinSep, splitWs_nil]
  | cons t rest ih =>
    intro h
    simp only [joinTokens] at *
    match rest with
    | [] =>
      rw [joinSep]
      exact splitWs_single (h t (List.mem_cons_self _ _)).1
        (h t (List.mem_cons_self _ _)).2
    | t2 :: ts2 =>
      rw [joinSep]
      have ht := h t (List.mem_cons_self _ _)
      match t, ht.1 with
      | c :: cs, _ =>
        have hc0 : isSpaceChar c = false := ht.2 c (List.mem_cons_self _ _)
        rw [List.cons_append, splitWs_cons_nonspace _ hc0]
        have hta := takeWhile_all_append (p := fun d => !isSpaceChar d)
          (y := ' ') (by decide) cs (joinSep ' ' (t2 :: ts2))
          (fun d hd => by simp [ht.2 d (List.mem_cons_of_mem _ hd)])
        rw [hta.1, hta.2, splitWs_cons_space _ (by decide)]
        rw [ih (fun t3 h3 => h t3 (List.mem_cons_of_mem _ h3))]

theorem mem_joinSep {c : Char} (sep : Char) :
    ∀ (ts : List Str), c ∈ joinSep sep ts → c = sep ∨ ∃ t ∈ ts, c ∈ t := by
  intro ts
  induction ts with
  | nil => intro h; rw [joinSep] at h; cases h
  | cons t rest ih =>
    intro h
    match rest with
    | [] =>
      rw [joinSep] at h
      exact Or.inr ⟨t, List.mem_cons_self _ _, h⟩
    | t2 :: ts2 =>
      rw [joinSep] at h
      rcases List.mem_append.mp h with h1 | h2
      · exact Or.inr ⟨t, List.mem_cons_self _ _, h1⟩
      · rcases List.mem_cons.mp h2 with h3 | h4
        · exact Or.inl h3
        · rcases ih h4 with h5 | ⟨t3, h6, h7⟩
          · exact Or.inl h5
          · exact Or.inr ⟨t3, List.mem_cons_of_mem _ h6, h7⟩

theorem splitNl_ne_nil (s : Str) : splitNl s ≠ [] := by
  match s with
  | [] => rw [splitNl]; simp
  | c :: rest =>
    rw [splitNl]
    by_cases h : c = '\n'
    · rw [if_pos h]; simp
    · rw [if_neg h]
      cases hs : splitNl rest with
      | nil => simp
      | cons t ts => simp

theorem joinNl_splitNl (s : Str) : joinNl (splitNl s) = s := by
  simp only [joinNl]
  induction s with
  | nil => rw [splitNl]; rw [joinSep]
  | cons c rest ih =>
    rw [splitNl]
    by_cases h : c = '\n'
    · rw [if_pos h]
      cases hs : splitNl rest with
      | nil => exact absurd hs (splitNl_ne_nil rest)
      | cons t ts =>
        rw [joinSep]
        rw [hs] at ih
        rw [ih, h]
        simp
    · rw [if_neg h]
      cases hs : splitNl rest with
      | nil => exact absurd hs (splitNl_ne_nil rest)
      | cons t ts =>
        rw [hs] at ih
        cases ts with
        | nil =>
          rw [joinSep]
          rw [joinSep] at ih
          rw [ih]
        | cons t2 ts2 =>
          rw [joinSep]
          rw [joinSep] at ih
          rw [List.cons_append, ih]

theorem splitNl_mem {s : Str} : ∀ l ∈ splitNl s, ∀ c ∈ l, c ∈ s := by
  induction s with
  | nil =>
    intro l hl c hc
    rw [splitNl] at hl
    simp only [List.mem_singleton] at hl
    subst hl; cases hc
  | cons d rest ih =>
    intro l hl c hc
    rw [splitNl] at hl
    by_cases h : d = '\n'
    · rw [if_pos h] at hl
      rcases List.mem_cons.mp hl with h1 | h2
      · subst h1; cases hc
      · exact List.mem_cons_of_mem _ (ih l h2 c hc)
    · rw [if_neg h] at hl
      cases hs : splitNl rest with
      | nil => exact absurd hs (splitNl_ne_nil rest)
      | cons t ts =>
        rw [hs] at hl
        rcases List.mem_cons.mp hl with h1 | h2
        · subst h1
          rcases List.mem_cons.mp hc with h3 | h4
          · subst h3; exact List.mem_cons_self _ _
          · exact List.mem_cons_of_mem _ (ih t (hs ▸ List.mem_cons_self _ _) c h4)
        · exact List.mem_cons_of_mem _ (ih l (hs ▸ List.mem_cons_of_mem _ h2) c hc)

theorem splitNl_of_no_nl {s : Str} (h : '\n' ∉ s) : splitNl s = [s] := by
  induction s with
  | nil => rw [splitNl]
  | cons c rest ih =>
    rw [splitNl]
    have hc : ¬c = '\n' := fun hh => h (hh ▸ List.mem_cons_self _ _)
    rw [if_neg hc, ih (fun hm => h (List.mem_cons_of_mem _ hm))]

/-- Facts about the concrete keyword list, by computation. -/
theorem keywords_facts : ∀ kw ∈ keywords, kw ≠ [] ∧
    ∀ c ∈ kw, isWordChar c = true ∧ Char.toLower c = c ∧ isSpaceChar c = false := by
  decide

/-- Some boundary-bounded keyword occurrence exists somewhere in `x`:
the condition under which the boilerplate `re.sub` changes a line. -/
def HasHit (x : Str) : Prop := ∃ i, kwHitAt x i = true

/-- The index form of a keyword hit is equivalent to a decomposition
`x = pre ++ kw ++ post` with non-word (or absent) neighbours. -/
theorem kwHitAt_iff {x : Str} {i : Nat} : kwHitAt x i = true ↔
    ∃ kw, kw ∈ keywords ∧ ∃ pre post, x = pre ++ kw ++ post ∧ pre.length = i ∧
      (pre = [] ∨ ∃ d, pre.getLast? = some d ∧ isWordChar d = false) ∧
      (post = [] ∨ ∃ d, post.head? = some d ∧ isWordChar d = false) := by
  constructor
  · intro h
    simp only [kwHitAt, List.any_eq_true, Bool.and_eq_true] at h
    obtain ⟨kw, hkw, ⟨hpref, hbefore⟩, hafter⟩ := h
    have hkne : kw ≠ [] := (keywords_facts kw hkw).1
    have hpre2 : kw <+: x.drop i := List.isPrefixOf_iff_prefix.mp hpref
    obtain ⟨post, hpost⟩ := hpre2
    have hdne : x.drop i ≠ [] := by
      rw [← hpost]; intro hh
      exact hkne (List.append_eq_nil.mp hh).1
    have hilt : i < x.length := by
      by_contra hge
      exact hdne (List.drop_eq_nil_of_le (by omega))
    have hxdec : x = x.take i ++ kw ++ post := by
      have h2 := List.take_append_drop i x
      rw [← hpost, ← List.append_assoc] at h2
      exact h2.symm
    have hplen : (x.take i).length = i := by
      rw [List.length_take]; omega
    have hpostval : post = x.drop (i + kw.length) := by
      have h1 : x.drop (i + kw.length) = (x.drop i).drop kw.length := by
        rw [List.drop_drop]
      rw [h1, ← hpost, List.drop_left]
    refine ⟨kw, hkw, x.take i, post, hxdec, hplen, ?_, ?_⟩
    · by_cases hi0 : i = 0
      · left; simp [hi0]
      · right
        have hbw : wordCharAt x (i - 1) = false := by
          have hb2 : i = 0 ∨ wordCharAt x (i - 1) = false := by
            simpa using hbefore
          rcases hb2 with h0 | hw
          · exact absurd h0 hi0
          · exact hw
        rw [wordCharAt] at hbw
        cases hx : x[i - 1]? with
        | none =>
          rw [List.getElem?_eq_getElem (by omega : i - 1 < x.length)] at hx
          cases hx
        | some d =>
          refine ⟨d, ?_, by rw [hx] at hbw; exact hbw⟩
          rw [List.getLast?_eq_getElem?, hplen, List.getElem?_take, if_pos (by omega)]
          exact hx
    · have haw : wordCharAt x (i + kw.length) = false := by simpa using hafter
      rw [wordCharAt] at haw
      cases hx : x[i + kw.length]? with
      | none =>
        left
        have hge : x.length ≤ i + kw.length := by
          by_contra hlt
          rw [List.getElem?_eq_getElem (by omega)] at hx
          cases hx
        rw [hpostval]
        exact List.drop_eq_nil_of_le hge
      | some d =>
        right
        refine ⟨d, ?_, by rw [hx] at haw; exact haw⟩
        rw [hpostval, List.head?_drop]
        exact hx
  · rintro ⟨kw, hkw, pre, post, hx, hlen, hbefore, hafter⟩
    simp only [kwHitAt, List.any_eq_true, Bool.and_eq_true]
    have hafterval : x[i + kw.length]? = post.head? := by
      rw [hx, List.getElem?_append,
        if_neg (by simp only [List.length_append, hlen]; omega)]
      simp only [List.length_append, hlen]
      rw [Nat.sub_self (i + kw.length), ← List.head?_eq_getElem?]
    refine ⟨kw, hkw, ⟨?_, ?_⟩, ?_⟩
    · rw [List.isPrefixOf_iff_prefix]
      refine ⟨post, ?_⟩
      rw [hx, ← hlen, List.append_assoc]
      exact (List.drop_left pre (kw ++ post)).symm
    · rcases hbefore with hpe | ⟨d, hd, hdw⟩
      · have h0 : i = 0 := by rw [← hlen, hpe]; rfl
        simp [h0]
      · have hpne : pre ≠ [] := by
          intro hh; rw [hh] at hd; cases hd
        have hi1 : 1 ≤ i := by
          rw [← hlen]
          exact List.length_pos.mpr hpne
        have hval : x[i - 1]? = some d := by
          rw [hx, List.getElem?_append,
            if_pos (by simp only [List.length_append]; omega),
            List.getElem?_append, if_pos (by omega)]
          have heq : i - 1 = pre.length - 1 := by omega
          rw [heq, ← List.getLast?_eq_getElem?]
          exact hd
        have hwc : wordCharAt x (i - 1) = false := by
          rw [wordCharAt, hval]
          exact hdw
        simp [hwc]
    · rcases hafter with hpe | ⟨d, hd, hdw⟩
      · subst hpe
        have hwc : wordCharAt x (i + kw.length) = false := by
          rw [wordCharAt, hafterval]
          rfl
        simp [hwc]
      · have hwc : wordCharAt x (i + kw.length) = false := by
          rw [wordCharAt, hafterval, hd]
          exact hdw
        simp [hwc]


theorem find?_range_min : ∀ (n : Nat) (p : Nat → Bool) (i : Nat),
    (List.range n).find? p = some i → p i = true ∧ ∀ j, j < i → p j = false := by
  intro n
  induction n with
  | zero => intro p i h; simp [List.range_zero] at h
  | succ n ih =>
    intro p i h
    rw [List.range_succ_eq_map] at h
    by_cases h0 : p 0 = true
    · rw [List.find?_cons_of_pos _ h0] at h
      obtain rfl : 0 = i := by simpa using h
      exact ⟨h0, fun j hj => absurd hj (by omega)⟩
    · rw [List.find?_cons_of_neg _ h0, List.find?_map] at h
      cases hf : (List.range n).find? (p ∘ Nat.succ) with
      | none => rw [hf] at h; cases h
      | some i2 =>
        rw [hf] at h
        obtain rfl : Nat.succ i2 = i := by simpa using h
        obtain ⟨hp, hmin⟩ := ih (p ∘ Nat.succ) i2 hf
        refine ⟨hp, fun j hj => ?_⟩
        cases j with
        | zero => exact Bool.not_eq_true _ ▸ h0
        | succ j2 => exact hmin j2 (by omega)

theorem kwHitAt_ge {l : Str} {j : Nat} (h : l.length ≤ j) : kwHitAt l j = false := by
  cases hh : kwHitAt l j with
  | false => rfl
  | true =>
    exfalso
    obtain ⟨kw, hkw, pre, post, hdec, hlen, _, _⟩ := kwHitAt_iff.mp hh
    have hkne : kw ≠ [] := (keywords_facts kw hkw).1
    have h1 := congrArg List.length hdec
    simp only [List.length_append] at h1
    have h2 : 1 ≤ kw.length := List.length_pos.mpr hkne
    omega

theorem truncLine_no_hit (l : Str) : ∀ j, kwHitAt (truncLine l) j = false := by
  intro j
  cases hfh : firstHit l with
  | none =>
    simp only [truncLine, hfh]
    by_cases hj : l.length ≤ j
    · exact kwHitAt_ge hj
    · have hmem : j ∈ List.range l.length := List.mem_range.mpr (by omega)
      have := List.find?_eq_none.mp hfh j hmem
      exact Bool.not_eq_true _ ▸ this
  | some i =>
    simp only [truncLine, hfh]
    have hmin := find?_range_min l.length (kwHitAt l) i hfh
    have hiin : i < l.length := List.mem_range.mp (List.mem_of_find?_eq_some hfh)
    cases hh : kwHitAt (l.take i) j with
    | false => rfl
    | true =>
      exfalso
      obtain ⟨kw, hkw, pre, post, hdec, hlen, hb, ha⟩ := kwHitAt_iff.mp hh
      have hkne : kw ≠ [] := (keywords_facts kw hkw).1
      have hkw1 : 1 ≤ kw.length := List.length_pos.mpr hkne
      have htlen : (l.take i).length = i := by
        rw [List.length_take]; omega
      have hsum : pre.length + (kw.length + post.length) = i := by
        have h2 := congrArg List.length hdec
        simp only [List.length_append] at h2
        omega
      rcases ha with hpost | ⟨d, hd, hdw⟩
      · -- the keyword ends exactly at the cut: contradicts the word
        -- boundary that the hit at `i` requires before position `i`
        subst hpost
        simp only [List.length_nil] at hsum
        obtain ⟨kw2, hkw2, pre2, post2, hdec2, hlen2, hb2, ha2⟩ :=
          kwHitAt_iff.mp hmin.1
        have hpre2ne : pre2 ≠ [] := by
          intro hh2
          rw [hh2] at hlen2
          simp at hlen2
          omega
        rcases hb2 with h1 | ⟨d2, hd2, hd2w⟩
        · exact hpre2ne h1
        · -- d2 = l[i-1] = last of kw, a word character
          have hval : l[i - 1]? = some d2 := by
            rw [hdec2, List.getElem?_append,
              if_pos (by simp only [List.length_append]; omega),
              List.getElem?_append, if_pos (by omega)]
            have heq : i - 1 = pre2.length - 1 := by omega
            rw [heq, ← List.getLast?_eq_getElem?]
            exact hd2
          obtain ⟨dk, hdk⟩ := Option.isSome_iff_exists.mp
            (List.getLast?_isSome.mpr hkne)
          have hval2 : l[i - 1]? = some dk := by
            have h1 : (l.take i)[i - 1]? = l[i - 1]? := by
              rw [List.getElem?_take, if_pos (by omega)]
            rw [← h1, hdec, List.append_nil, List.getElem?_append,
              if_neg (by omega)]
            have heq : i - 1 - pre.length = kw.length - 1 := by omega
            rw [heq, ← List.getLast?_eq_getElem?]
            exact hdk
          have : d2 = dk := by
            rw [hval] at hval2
            exact Option.some.injEq _ _ ▸ hval2.symm ▸ rfl
          subst this
          have hdkw : isWordChar d2 = true :=
            ((keywords_facts kw hkw).2 d2 (List.mem_of_mem_getLast? hdk)).1
          rw [hdkw] at hd2w
          cases hd2w
      · -- the hit lies strictly inside the kept prefix: contradicts
        -- minimality of the cut position
        have hpostne : post ≠ [] := by
          intro hh2; rw [hh2] at hd; cases hd
        have hplt : pre.length < i := by
          have : 1 ≤ post.length := List.length_pos.mpr hpostne
          omega
        have hldec : l = pre ++ kw ++ (post ++ l.drop i) := by
          conv_lhs => rw [← List.take_append_drop i l]
          rw [hdec, List.append_assoc]
        have hhit : kwHitAt l pre.length = true := by
          rw [kwHitAt_iff]
          refine ⟨kw, hkw, pre, post ++ l.drop i, hldec, rfl, hb, ?_⟩
          right
          refine ⟨d, ?_, hdw⟩
          cases post with
          | nil => cases hd
          | cons p0 ps =>
            simp only [List.head?_cons, Option.some.injEq] at hd
            subst hd
            rfl
        rw [hmin.2 pre.length hplt] at hhit
        cases hhit

theorem not_hasHit_truncLine (l : Str) : ¬HasHit (truncLine l) := by
  rintro ⟨j, hj⟩
  rw [truncLine_no_hit l j] at hj
  cases hj

/-- A boundary-bounded keyword occurrence in a `sep`-join, for a
non-word separator, lies inside one of the joined pieces. -/
theorem joinSep_hit {sep : Char} (hsep : isWordChar sep = false) :
    ∀ (ls : List Str), HasHit (joinSep sep ls) → ∃ l ∈ ls, HasHit l := by
  intro ls
  induction ls with
  | nil =>
    rintro ⟨i, hi⟩
    rw [joinSep] at hi
    obtain ⟨kw, hkw, pre, post, hdec, -, -, -⟩ := kwHitAt_iff.mp hi
    have h1 := congrArg List.length hdec
    simp only [List.length_nil, List.length_append] at h1
    have h2 := List.length_pos.mpr (keywords_facts kw hkw).1
    omega
  | cons l rest ih =>
    rintro ⟨i, hi⟩
    match rest with
    | [] =>
      rw [joinSep] at hi
      exact ⟨l, List.mem_cons_self _ _, ⟨i, hi⟩⟩
    | l2 :: ls2 =>
      rw [joinSep] at hi
      obtain ⟨kw, hkw, pre, post, hdec, hlen, hb, ha⟩ := kwHitAt_iff.mp hi
      have hkne := (keywords_facts kw hkw).1
      rcases List.append_eq_append_iff.mp hdec with ⟨a1, ha1, ha2⟩ | ⟨c1, hc1, hc2⟩
      · -- `pre ++ kw = l ++ a1`: the keyword ends in or after the separator
        rcases List.append_eq_append_iff.mp ha1 with ⟨b1, hb1, hb2⟩ | ⟨d1, hd1, hd2⟩
        · -- `kw = b1 ++ a1`
          cases a1 with
          | nil =>
            refine ⟨l, List.mem_cons_self _ _, pre.length, kwHitAt_iff.mpr
              ⟨kw, hkw, pre, [], ?_, rfl, hb, Or.inl rfl⟩⟩
            rw [List.append_nil]
            rw [hb1, hb2, List.append_nil]
          | cons a0 as =>
            exfalso
            have ha0 : a0 = sep := by
              have := congrArg List.head? ha2
              simpa using this.symm
            have hmem : a0 ∈ kw := by
              rw [hb2]
              exact List.mem_append.mpr (Or.inr (List.mem_cons_self _ _))
            have := ((keywords_facts kw hkw).2 a0 hmem).1
            rw [ha0, hsep] at this
            cases this
        · -- `pre = l ++ d1`: the keyword lies in the tail
          cases d1 with
          | nil =>
            exfalso
            rw [List.append_nil] at hd1
            rw [hd2] at ha2
            match kw, hkne with
            | k0 :: ks, _ =>
              have hk0 : k0 = sep := by
                have := congrArg List.head? ha2
                simpa using this.symm
              have := ((keywords_facts (k0 :: ks) hkw).2 k0
                (List.mem_cons_self _ _)).1
              rw [hk0, hsep] at this
              cases this
          | cons e es =>
            have hesep : e = sep := by
              rw [hd2] at ha2
              have := congrArg List.head? ha2
              simpa using this.symm
            have hy2 : joinSep sep (l2 :: ls2) = es ++ kw ++ post := by
              rw [hd2] at ha2
              have : sep :: joinSep sep (l2 :: ls2) =
                  e :: (es ++ kw ++ post) := by
                rw [ha2]
                simp [List.append_assoc]
              simpa [hesep] using this
            have hhit2 : HasHit (joinSep sep (l2 :: ls2)) := by
              refine ⟨es.length, kwHitAt_iff.mpr ⟨kw, hkw, es, post, hy2, rfl, ?_, ha⟩⟩
              cases es with
              | nil => exact Or.inl rfl
              | cons f fs =>
                right
                rcases hb with hpe | ⟨d, hd, hdw⟩
                · exfalso
                  rw [hpe] at hd1
                  exact absurd hd1.symm (by simp)
                · refine ⟨d, ?_, hdw⟩
                  rw [hd1, hesep] at hd
                  rw [List.getLast?_append, List.getLast?_cons_cons] at hd
                  obtain ⟨g, hg⟩ := Option.isSome_iff_exists.mp
                    (List.getLast?_isSome.mpr (by simp : (f :: fs) ≠ []))
                  rw [hg] at hd
                  simp only [Option.or_some] at hd
                  rw [hg, ← hd]
            obtain ⟨l3, hm3, hh3⟩ := ih hhit2
            exact ⟨l3, List.mem_cons_of_mem _ hm3, hh3⟩
      · -- `l = pre ++ kw ++ c1`: the keyword lies inside the head piece
        refine ⟨l, List.mem_cons_self _ _, pre.length, kwHitAt_iff.mpr
          ⟨kw, hkw, pre, c1, hc1, rfl, hb, ?_⟩⟩
        cases c1 with
        | nil => exact Or.inl rfl
        | cons c0 cs =>
          right
          rcases ha with hpe | ⟨d, hd, hdw⟩
          · rw [hc2] at hpe
            cases hpe
          · refine ⟨d, ?_, hdw⟩
            rw [hc2] at hd
            simpa using hd

/-- A hit inside an all-word-character string forces the whole string to
be a keyword. -/
theorem hit_all_word {t : Str} (hw : ∀ c ∈ t, isWordChar c = true) :
    HasHit t → t ∈ keywords := by
  rintro ⟨i, hi⟩
  obtain ⟨kw, hkw, pre, post, hdec, hlen, hb, ha⟩ := kwHitAt_iff.mp hi
  have hpre : pre = [] := by
    rcases hb with h | ⟨d, hd, hdw⟩
    · exact h
    · exfalso
      have hdm : d ∈ t := by
        rw [hdec]
        exact List.mem_append.mpr (Or.inl (List.mem_append.mpr
          (Or.inl (List.mem_of_mem_getLast? hd))))
      rw [hw d hdm] at hdw
      cases hdw
  have hpost : post = [] := by
    rcases ha with h | ⟨d, hd, hdw⟩
    · exact h
    · exfalso
      have hdp : d ∈ post := by
        cases post with
        | nil => cases hd
        | cons p ps =>
          simp only [List.head?_cons, Option.some.injEq] at hd
          rw [← hd]
          exact List.mem_cons_self _ _
      have hdm : d ∈ t := by
        rw [hdec]
        exact List.mem_append.mpr (Or.inr hdp)
      rw [hw d hdm] at hdw
      cases hdw
  rw [hpre, hpost, List.append_nil, List.nil_append] at hdec
  rw [hdec]
  exact hkw

theorem stripBoilerplate_no_hit (s : Str) : ¬HasHit (stripBoilerplate s) := by
  intro h
  simp only [stripBoilerplate, joinNl] at h
  obtain ⟨l, hl, hhit⟩ := joinSep_hit (by decide) _ h
  obtain ⟨l2, -, rfl⟩ := List.mem_map.mp hl
  exact not_hasHit_truncLine l2 hhit

/-- A `splitWs` token decomposes its source string with whitespace (or
an end of string) on both sides. -/
theorem splitWs_decomp : ∀ (n : Nat) (z : Str), z.length ≤ n →
    ∀ t ∈ splitWs z, ∃ pre post, z = pre ++ t ++ post ∧
      (pre = [] ∨ ∃ d, pre.getLast? = some d ∧ isSpaceChar d = true) ∧
      (post = [] ∨ ∃ d, post.head? = some d ∧ isSpaceChar d = true) := by
  intro n
  induction n with
  | zero =>
    intro z hz t ht
    have hznil : z = [] := List.length_eq_zero.mp (Nat.le_zero.mp hz)
    subst hznil
    rw [splitWs_nil] at ht; cases ht
  | succ n ih =>
    intro z hz t ht
    match z with
    | [] => rw [splitWs_nil] at ht; cases ht
    | c :: rest =>
      by_cases hc : isSpaceChar c = true
      · rw [splitWs_cons_space rest hc] at ht
        obtain ⟨pre, post, hdec, hb, ha⟩ :=
          ih rest (by simpa using Nat.le_of_succ_le_succ hz) t ht
        refine ⟨c :: pre, post, by rw [hdec]; rfl, ?_, ha⟩
        right
        cases pre with
        | nil => exact ⟨c, rfl, hc⟩
        | cons p ps =>
          rcases hb with h | ⟨d, hd, hdw⟩
          · exact absurd h (List.cons_ne_nil _ _)
          · exact ⟨d, by rw [List.getLast?_cons_cons]; exact hd, hdw⟩
      · rw [splitWs_cons_nonspace rest (by simpa using hc)] at ht
        rcases List.mem_cons.mp ht with h1 | h2
        · subst h1
          refine ⟨[], rest.dropWhile (fun d => !isSpaceChar d), ?_, Or.inl rfl, ?_⟩
          · rw [List.nil_append, List.cons_append]
            rw [List.takeWhile_append_dropWhile]
          · cases hdw : rest.dropWhile (fun d => !isSpaceChar d) with
            | nil => exact Or.inl rfl
            | cons d ds =>
              right
              refine ⟨d, by rw [List.head?_cons], ?_⟩
              have hh := List.head?_dropWhile_not (fun d => !isSpaceChar d) rest
              rw [hdw] at hh
              simpa using hh
        · have hlen2 : (rest.dropWhile (fun d => !isSpaceChar d)).length ≤ n := by
            have := (rest.dropWhile_sublist (fun d => !isSpaceChar d)).length_le
            simp only [List.length_cons] at hz
            omega
          obtain ⟨pre, post, hdec, hb, ha⟩ := ih _ hlen2 t h2
          have htfacts := splitWs_tokens t h2
          have hpne : pre ≠ [] := by
            intro hh
            subst hh
            rw [List.nil_append] at hdec
            match t, htfacts.1 with
            | t0 :: ts, _ =>
              have hh2 := List.head?_dropWhile_not (fun d => !isSpaceChar d) rest
              rw [hdec] at hh2
              simp only [List.cons_append, List.head?_cons] at hh2
              simp at hh2
              have hns := (htfacts.2 t0 (List.mem_cons_self _ _)).2
              rw [hns] at hh2
              cases hh2
          rcases hb with h | ⟨d, hd, hdw⟩
          · exact absurd h hpne
          · refine ⟨c :: rest.takeWhile (fun d => !isSpaceChar d) ++ pre, post, ?_, ?_, ha⟩
            · have h3 : rest = rest.takeWhile (fun d => !isSpaceChar d) ++
                  (pre ++ t ++ post) := by
                rw [← hdec, List.takeWhile_append_dropWhile]
              conv_lhs => rw [h3]
              simp [List.append_assoc]
            · right
              refine ⟨d, ?_, hdw⟩
              rw [List.getLast?_append, hd]
              rfl

theorem truncLine_mem {c : Char} {l : Str} (h : c ∈ truncLine l) : c ∈ l := by
  rw [truncLine] at h
  cases hf : firstHit l with
  | none => rw [hf] at h; exact h
  | some i =>
    rw [hf] at h
    exact (List.take_sublist i l).mem h

theorem trimStr_mem {c : Char} {x : Str} (h : c ∈ trimStr x) : c ∈ x := by
  rw [trimStr] at h
  rw [List.mem_reverse] at h
  have h2 := (List.dropWhile_sublist isSpaceChar).mem h
  rw [List.mem_reverse] at h2
  exact (List.dropWhile_sublist isSpaceChar).mem h2

theorem stripBoilerplate_mem {c : Char} {v : Str}
    (h : c ∈ stripBoilerplate v) : c = '\n' ∨ c ∈ v := by
  simp only [stripBoilerplate, joinNl] at h
  rcases mem_joinSep '\n' _ h with h1 | ⟨l, hl, hc⟩
  · exact Or.inl h1
  · obtain ⟨l2, hl2, rfl⟩ := List.mem_map.mp hl
    exact Or.inr (splitNl_mem l2 hl2 c (truncLine_mem hc))

theorem punct_word_eq : ∀ (m t : Str), punctToSpace m = t →
    (∀ c ∈ t, isWordChar c = true) → m = t := by
  intro m
  induction m with
  | nil => intro t h _; rw [← h]; rfl
  | cons c cs ih =>
    intro t h hw
    cases t with
    | nil => simp [punctToSpace] at h
    | cons d ds =>
      simp only [punctToSpace, List.map_cons, List.cons.injEq] at h
      obtain ⟨h1, h2⟩ := h
      have hd : isWordChar d = true := hw d (List.mem_cons_self _ _)
      have hcd : c = d := by
        by_cases hcw : (isWordChar c || isSpaceChar c) = true
        · rw [if_pos hcw] at h1; exact h1
        · rw [if_neg hcw] at h1
          rw [← h1] at hd
          exact absurd hd (by decide)
      subst hcd
      have hds : cs = ds := ih ds (by simpa [punctToSpace] using h2)
        (fun e he => hw e (List.mem_cons_of_mem _ he))
      rw [hds]

theorem punct_decomp {w pre t post : Str} (hz : punctToSpace w = pre ++ t ++ post)
    (ht : ∀ c ∈ t, isWordChar c = true) :
    ∃ pre2 post2, w = pre2 ++ t ++ post2 ∧
      punctToSpace pre2 = pre ∧ punctToSpace post2 = post := by
  have hz2 : List.map (fun c => if isWordChar c || isSpaceChar c then c else ' ') w
      = pre ++ t ++ post := hz
  obtain ⟨l1, l2, hw12, hm1, hm2⟩ := List.map_eq_append_iff.mp hz2
  obtain ⟨l11, l12, hl1, hm11, hm12⟩ := List.map_eq_append_iff.mp hm1
  have hl12 : l12 = t := punct_word_eq l12 t hm12 ht
  refine ⟨l11, l2, ?_, hm11, hm2⟩
  rw [hw12, hl1, hl12]

theorem punct_last_not_word {pre2 pre : Str} (h : punctToSpace pre2 = pre)
    {d : Char} (hd : pre.getLast? = some d) (hsp : isSpaceChar d = true) :
    ∃ d2, pre2.getLast? = some d2 ∧ isWordChar d2 = false := by
  have hmap := List.getLast?_map
    (fun c => if isWordChar c || isSpaceChar c then c else ' ') pre2
  rw [show List.map (fun c => if isWordChar c || isSpaceChar c then c else ' ') pre2
      = pre from h, hd] at hmap
  cases hl : pre2.getLast? with
  | none => rw [hl] at hmap; cases hmap
  | some d2 =>
    rw [hl] at hmap
    have hmap2 : d = if isWordChar d2 || isSpaceChar d2 then d2 else ' ' := by
      simpa using hmap
    refine ⟨d2, rfl, ?_⟩
    by_cases hw2 : isWordChar d2 = true
    · exfalso
      rw [if_pos (by simp [hw2])] at hmap2
      subst hmap2
      rw [space_not_word hsp] at hw2
      cases hw2
    · simpa using hw2

theorem punct_head_not_word {post2 post : Str} (h : punctToSpace post2 = post)
    {d : Char} (hd : post.head? = some d) (hsp : isSpaceChar d = true) :
    ∃ d2, post2.head? = some d2 ∧ isWordChar d2 = false := by
  have hmap := List.head?_map
    (fun c => if isWordChar c || isSpaceChar c then c else ' ') post2
  rw [show List.map (fun c => if isWordChar c || isSpaceChar c then c else ' ') post2
      = post from h, hd] at hmap
  cases hl : post2.head? with
  | none => rw [hl] at hmap; cases hmap
  | some d2 =>
    rw [hl] at hmap
    have hmap2 : d = if isWordChar d2 || isSpaceChar d2 then d2 else ' ' := by
      simpa using hmap
    refine ⟨d2, rfl, ?_⟩
    by_cases hw2 : isWordChar d2 = true
    · exfalso
      rw [if_pos (by simp [hw2])] at hmap2
      subst hmap2
      rw [space_not_word hsp] at hw2
      cases hw2
    · simpa using hw2

/-- The token list the normalizer joins with single spaces. -/
def normTokens (s : Str) : List Str :=
  splitWs (punctToSpace (stripBoilerplate (trimStr (lowerStr s))))

theorem normCore_eq_join (s : Str) : normCore s = joinTokens (normTokens s) := rfl

/-- Every token of the normalizer's output is a nonempty lower-fixed
word-character run that is not a boilerplate keyword. -/
theorem normTokens_good (s : Str) : ∀ t ∈ normTokens s,
    t ≠ [] ∧ (∀ c ∈ t, isWordChar c = true ∧ Char.toLower c = c) ∧ t ∉ keywords := by
  intro t ht
  rw [normTokens] at ht
  have tok := splitWs_tokens t ht
  have hchars : ∀ c ∈ t, isWordChar c = true ∧ Char.toLower c = c := by
    intro c hc
    have h1 := (tok.2 c hc).1
    have h2 := (tok.2 c hc).2
    obtain ⟨e, he, hfe⟩ := List.mem_map.mp
      (show c ∈ List.map (fun c => if isWordChar c || isSpaceChar c then c else ' ')
        (stripBoilerplate (trimStr (lowerStr s))) from h1)
    by_cases hew : (isWordChar e || isSpaceChar e) = true
    · rw [if_pos hew] at hfe
      subst hfe
      have hor : isWordChar e = true ∨ isSpaceChar e = true := by simpa using hew
      rcases hor with h3 | h3
      · refine ⟨h3, ?_⟩
        rcases stripBoilerplate_mem he with hnl | hmem
        · subst hnl
          exact absurd h3 (by decide)
        · have hmem2 := trimStr_mem hmem
          obtain ⟨g, -, hg⟩ := List.mem_map.mp hmem2
          rw [← hg]
          exact toLower_toLower g
      · rw [h3] at h2; cases h2
    · rw [if_neg hew] at hfe
      subst hfe
      exact absurd h2 (by decide)
  refine ⟨tok.1, hchars, ?_⟩
  intro hker
  obtain ⟨pre, post, hzdec, hbz, haz⟩ := splitWs_decomp _ _ le_rfl t ht
  obtain ⟨pre2, post2, hw2, hp2, hq2⟩ :=
    punct_decomp hzdec (fun c hc => (hchars c hc).1)
  have hhit : HasHit (stripBoilerplate (trimStr (lowerStr s))) := by
    refine ⟨pre2.length, kwHitAt_iff.mpr ⟨t, hker, pre2, post2, hw2, rfl, ?_, ?_⟩⟩
    · rcases hbz with h | ⟨d, hd, hdsp⟩
      · left
        subst h
        exact List.map_eq_nil.mp hp2
      · right; exact punct_last_not_word hp2 hd hdsp
    · rcases haz with h | ⟨d, hd, hdsp⟩
      · left
        subst h
        exact List.map_eq_nil.mp hq2
      · right; exact punct_head_not_word hq2 hd hdsp
  exact stripBoilerplate_no_hit _ hhit

theorem map_self_of {f : Char → Char} :
    ∀ {l : Str}, (∀ c ∈ l, f c = c) → l.map f = l := by
  intro l
  induction l with
  | nil => intro _; rfl
  | cons c cs ih =>
    intro h
    simp only [List.map_cons, h c (List.mem_cons_self _ _),
      ih (fun d hd => h d (List.mem_cons_of_mem _ hd))]

theorem trimStr_eq_self {y : Str}
    (h1 : ∀ d, y.head? = some d → isSpaceChar d = false)
    (h2 : ∀ d, y.getLast? = some d → isSpaceChar d = false) :
    trimStr y = y := by
  rw [trimStr]
  have e1 : y.dropWhile isSpaceChar = y := by
    rw [List.dropWhile_eq_self_iff]
    intro hl
    have hh : y.head? = some (y.get ⟨0, hl⟩) := by
      rw [List.head?_eq_getElem?]
      exact (List.getElem?_eq_getElem hl).trans (by rfl)
    rw [h1 _ hh]
    simp
  rw [e1]
  have e2 : y.reverse.dropWhile isSpaceChar = y.reverse := by
    rw [List.dropWhile_eq_self_iff]
    intro hl
    have hh : y.reverse.head? = some (y.reverse.get ⟨0, hl⟩) := by
      rw [List.head?_eq_getElem?]
      exact (List.getElem?_eq_getElem hl).trans (by rfl)
    rw [List.head?_reverse] at hh
    rw [h2 _ hh]
    simp
  rw [e2, List.reverse_reverse]

theorem joinSep_ne_nil {sep : Char} {t : Str} {ts : List Str} (h : t ≠ []) :
    joinSep sep (t :: ts) ≠ [] := by
  match ts with
  | [] => rw [joinSep]; exact h
  | t2 :: ts2 =>
    rw [joinSep]
    intro hh
    rcases List.append_eq_nil.mp hh with ⟨-, h2⟩
    cases h2

theorem joinSep_head {sep : Char} :
    ∀ (ts : List Str), (∀ t ∈ ts, t ≠ []) →
    ∀ d, (joinSep sep ts).head? = some d → ∃ t ∈ ts, t.head? = some d := by
  intro ts
  match ts with
  | [] => intro _ d hd; rw [joinSep] at hd; cases hd
  | [t] =>
    intro _ d hd
    rw [joinSep] at hd
    exact ⟨t, List.mem_cons_self _ _, hd⟩
  | t :: t2 :: ts2 =>
    intro hne d hd
    rw [joinSep] at hd
    match t, hne t (List.mem_cons_self _ _) with
    | c :: cs, _ =>
      rw [List.cons_append, List.head?_cons] at hd
      exact ⟨c :: cs, List.mem_cons_self _ _, hd⟩

theorem joinSep_getLast {sep : Char} :
    ∀ (ts : List Str), (∀ t ∈ ts, t ≠ []) →
    ∀ d, (joinSep sep ts).getLast? = some d → ∃ t ∈ ts, t.getLast? = some d := by
  intro ts
  induction ts with
  | nil => intro _ d hd; rw [joinSep] at hd; cases hd
  | cons t rest ih =>
    match rest with
    | [] =>
      intro _ d hd
      rw [joinSep] at hd
      exact ⟨t, List.mem_cons_self _ _, hd⟩
    | t2 :: ts2 =>
      intro hne d hd
      rw [joinSep, List.getLast?_append] at hd
      have hjne : joinSep sep (t2 :: ts2) ≠ [] :=
        joinSep_ne_nil (hne t2 (List.mem_cons_of_mem _ (List.mem_cons_self _ _)))
      match hj : joinSep sep (t2 :: ts2), hjne with
      | j0 :: js, _ =>
        rw [hj, List.getLast?_cons_cons] at hd
        obtain ⟨g, hg⟩ := Option.isSome_iff_exists.mp
          (List.getLast?_isSome.mpr (by simp : (j0 :: js) ≠ []))
        rw [hg] at hd
        simp only [Option.or_some] at hd
        obtain ⟨t3, hm3, hl3⟩ := ih (fun t4 h4 => hne t4 (List.mem_cons_of_mem _ h4))
          d (by rw [hj, hg, ← hd])
        exact ⟨t3, List.mem_cons_of_mem _ hm3, hl3⟩

/-- Applying the normalizer body to its own output changes nothing. -/
theorem normCore_fix (s : Str) : normCore (normCore s) = normCore s := by
  have hgood := normTokens_good s
  have hne : ∀ t ∈ normTokens s, t ≠ [] := fun t h => (hgood t h).1
  have hts : ∀ t ∈ normTokens s, t ≠ [] ∧ ∀ c ∈ t, isSpaceChar c = false := by
    intro t h
    exact ⟨hne t h, fun c hc => word_not_space ((hgood t h).2.1 c hc).1⟩
  set y := normCore s with hy
  have hymem : ∀ c ∈ y, c = ' ' ∨ ∃ t ∈ normTokens s, c ∈ t := by
    intro c hc
    exact mem_joinSep ' ' (normTokens s) hc
  have hlow : lowerStr y = y := by
    rw [lowerStr]
    apply map_self_of
    intro c hc
    rcases hymem c hc with h1 | ⟨t, ht, hct⟩
    · rw [h1]; decide
    · exact ((hgood t ht).2.1 c hct).2
  have htrim : trimStr y = y := by
    apply trimStr_eq_self
    · intro d hd
      obtain ⟨t, ht, hdt⟩ := joinSep_head (normTokens s) hne d hd
      cases t with
      | nil => exact absurd rfl (hne _ ht)
      | cons a as =>
        rw [List.head?_cons] at hdt
        have had : a = d := by simpa using hdt
        subst had
        exact word_not_space ((hgood _ ht).2.1 a (List.mem_cons_self _ _)).1
    · intro d hd
      obtain ⟨t, ht, hdt⟩ := joinSep_getLast (normTokens s) hne d hd
      exact word_not_space
        ((hgood t ht).2.1 d (List.mem_of_mem_getLast? hdt)).1
  have hnonl : '\n' ∉ y := by
    intro h
    rcases hymem _ h with h1 | ⟨t, ht, hct⟩
    · cases h1
    · have := ((hgood t ht).2.1 _ hct).1
      exact absurd this (by decide)
  have hnohit : ¬HasHit y := by
    intro h
    obtain ⟨t, ht, hth⟩ := joinSep_hit (by decide) (normTokens s) h
    exact (hgood t ht).2.2
      (hit_all_word (fun c hc => ((hgood t ht).2.1 c hc).1) hth)
  have hstrip : stripBoilerplate y = y := by
    rw [stripBoilerplate, splitNl_of_no_nl hnonl]
    have htr : truncLine y = y := by
      rw [truncLine]
      cases hf : firstHit y with
      | none => rfl
      | some i =>
        exact absurd ⟨i, (find?_range_min _ _ _ hf).1⟩ hnohit
    rw [List.map_singleton, htr]
    rfl
  have hpunct : punctToSpace y = y := by
    rw [punctToSpace]
    apply map_self_of
    intro c hc
    rcases hymem c hc with h1 | ⟨t, ht, hct⟩
    · rw [h1]; decide
    · rw [if_pos (by simp [((hgood t ht).2.1 c hct).1])]
  have hsw : splitWs y = normTokens s := by
    rw [hy, normCore_eq_join]
    exact splitWs_joinTokens _ hts
  calc normCore y
      = joinTokens (splitWs (punctToSpace (stripBoilerplate (trimStr (lowerStr y))))) := rfl
    _ = joinTokens (splitWs y) := by rw [hlow, htrim, hstrip, hpunct]
    _ = joinTokens (normTokens s) := by rw [hsw]
    _ = y := rfl

/-! ## Claim theorems -/

/-- Claim C1: the title normalizer is idempotent: for every input string
`s`, `normalize(normalize(s)) == normalize(s)`. -/
theorem C1_normalize_idempotent (s : Str) :
    normalize_title (normalize_title s) = normalize_title s := by
  by_cases hs : s = []
  · simp [normalize_title, hs]
  · have h1 : normalize_title s = normCore s := by
      rw [normalize_title, if_neg hs]
    rw [h1, normalize_title]
    by_cases hy : normCore s = []
    · rw [if_pos hy, hy]
    · rw [if_neg hy]
      exact normCore_fix s

/-- Claim C2 (counterexample): the underscore of `"foo_bar"` is not
replaced by a space; the normalized output is `"foo_bar"` itself, not
`"foo bar"`, because Python's `\w` class includes the underscore. -/
theorem C2_underscore_counterexample :
    normalize_title (String.toList "foo_bar") = String.toList "foo_bar" ∧
    normalize_title (String.toList "foo_bar") ≠ String.toList "foo bar" := by
  constructor
  · decide
  · decide

/-- Claim C2 (amended): the punctuation stage replaces exactly the
characters that are neither word characters (alphanumeric or underscore)
nor whitespace by a space, leaving word characters — underscores
included — and whitespace unchanged; consequently every character of a
normalized title is a word character or a space. -/
theorem C2_nonword_to_space (s : Str) :
    (∀ i, i < s.length →
      (punctToSpace s).getD i ' ' =
        (if isWordChar (s.getD i ' ') || isSpaceChar (s.getD i ' ')
          then s.getD i ' ' else ' ')) ∧
    (∀ c ∈ normalize_title s, isWordChar c = true ∨ c = ' ') := by
  constructor
  · intro i hi
    rw [punctToSpace]
    rw [List.getD_eq_getElem?_getD, List.getElem?_map]
    rw [List.getElem?_eq_getElem hi]
    rw [List.getD_eq_getElem?_getD, List.getElem?_eq_getElem hi]
    rfl
  · intro c hc
    rw [normalize_title] at hc
    by_cases hs : s = []
    · rw [if_pos hs] at hc; cases hc
    · rw [if_neg hs] at hc
      rcases mem_joinSep ' ' (normTokens s) hc with h1 | ⟨t, ht, hct⟩
      · exact Or.inr h1
      · exact Or.inl ((normTokens_good s t ht).2.1 c hct).1

/-- Witness for the amended claim C2, at the concrete input
`"foo_bar!"` (position 3 holds the underscore) and at a character of
the normalized output of `"foo_bar"`. -/
theorem C2_nonword_to_space_witness :
    ((punctToSpace (String.toList "foo_bar!")).getD 3 ' ' =
      (if isWordChar ((String.toList "foo_bar!").getD 3 ' ') ||
          isSpaceChar ((String.toList "foo_bar!").getD 3 ' ')
        then (String.toList "foo_bar!").getD 3 ' ' else ' ')) ∧
    (isWordChar '_' = true ∨ '_' = ' ') :=
  ⟨(C2_nonword_to_space (String.toList "foo_bar!")).1 3 (by decide),
   (C2_nonword_to_space (String.toList "foo_bar")).2 '_' (by decide)⟩

theorem sortIdxDesc_two (key : Nat → ℚ) (h : ¬key 0 < key 1) :
    sortIdxDesc key 2 = [0, 1] := by
  show (List.range 2).foldl (fun acc i => insertDescIdx key i acc) [] = [0, 1]
  have h2 : List.range 2 = [0, 1] := rfl
  rw [h2, List.foldl_cons, List.foldl_cons, List.foldl_nil]
  rw [insertDescIdx, insertDescIdx, if_neg h]
  rw [insertDescIdx]

/-- Evaluation of the decision block on exactly two candidates whose
scores are already in descending order. -/
theorem decisionFromScores_two {α : Type} [Inhabited α] (c₁ c₂ : α)
    (s₁ s₂ : ℚ) (nc : Bool) (aT gT : ℚ) (h : s₂ ≤ s₁) :
    decisionFromScores [c₁, c₂] [s₁, s₂] nc aT gT =
      if nc = true ∨ aT ≤ s₁ ∨ gT ≤ s₁ - s₂ then .auto c₁
      else .escalate [c₁, c₂] := by
  rw [decisionFromScores]
  have hs : sortIdxDesc (fun i => ([s₁, s₂] : List ℚ).getD i 0)
      ([s₁, s₂] : List ℚ).length = [0, 1] := by
    have hl : ([s₁, s₂] : List ℚ).length = 2 := rfl
    rw [hl]
    exact sortIdxDesc_two _ (by simpa using not_lt.mpr h)
  simp only [hs]
  simp only [List.headD_cons, List.getD_cons_zero, List.getD_cons_succ]
  rw [if_pos (by simp : 1 < ([s₁, s₂] : List ℚ).length)]
  simp only [List.getD_cons_zero, List.getD_cons_succ, List.map_cons,
    List.map_nil, List.getD_eq_getElem?_getD]
  by_cases hcond : nc = true ∨ aT ≤ s₁ ∨ gT ≤ s₁ - s₂
  · rw [if_pos (by simpa [or_assoc] using hcond), if_pos hcond]
  · rw [if_neg (by simpa [or_assoc] using hcond), if_neg hcond]
    rfl

/-- Claim C3: the decision thresholds are inclusive: with scores
`[0.80, 0.50]` and `autoScoreThreshold = 0.80` the decision is AUTO on
the top candidate; with scores `[0.70, 0.58]` and
`gapThreshold = 0.12` the decision is AUTO; with scores `[0.70, 0.60]`
(gap `0.10 < 0.12`, top below the auto threshold, `no_confirm` false)
the decision is ESCALATE. -/
theorem C3_thresholds {α : Type} [Inhabited α] (c₁ c₂ : α) :
    decisionFromScores [c₁, c₂] [(80 : ℚ)/100, 50/100] false (80/100) (12/100)
      = .auto c₁ ∧
    decisionFromScores [c₁, c₂] [(70 : ℚ)/100, 58/100] false (80/100) (12/100)
      = .auto c₁ ∧
    decisionFromScores [c₁, c₂] [(70 : ℚ)/100, 60/100] false (80/100) (12/100)
      = .escalate [c₁, c₂] := by
  refine ⟨?_, ?_, ?_⟩
  · rw [decisionFromScores_two _ _ _ _ _ _ _ (by norm_num)]
    rw [if_pos (by norm_num)]
  · rw [decisionFromScores_two _ _ _ _ _ _ _ (by norm_num)]
    rw [if_pos (by norm_num)]
  · rw [decisionFromScores_two _ _ _ _ _ _ _ (by norm_num)]
    rw [if_neg (by push_neg; norm_num)]

/-- Claim C7: with exactly one fetched candidate the decision is always
AUTO with that candidate, for every query, resolver, flag, threshold
pair and scorer; no score enters the result. -/
theorem C7_single_candidate (bn : Str) (c : Candidate)
    (resolve : List Candidate → Option Candidate) (nc : Bool)
    (autoT gapT : ℚ) (scoreFn : Str → Str → ℚ) :
    rowChosen bn [c] resolve nc autoT gapT scoreFn = c.toChosen := rfl

/-- Claim C8: with zero candidates, and likewise when the decision
escalates and manual resolution returns none, the resolution written
for the row is the all-empty sentinel: empty title, author, publish
date and link, and a ratings count of `0`. -/
theorem C8_empty_resolution (bn : Str)
    (resolve : List Candidate → Option Candidate) (nc : Bool)
    (autoT gapT : ℚ) (scoreFn : Str → Str → ℚ)
    (c₁ c₂ : Candidate) (cs : List Candidate) (ordered : List Candidate) :
    (rowChosen bn [] resolve nc autoT gapT scoreFn = emptyChosen ∧
      emptyChosen = ⟨[], [], [], 0, []⟩) ∧
    (decisionFromScores (c₁ :: c₂ :: cs)
        ((c₁ :: c₂ :: cs).map fun c =>
          scoreFn (normalize_title bn) (normalize_title c.exact_title))
        nc autoT gapT = .escalate ordered →
      resolve ordered = none →
      rowChosen bn (c₁ :: c₂ :: cs) resolve nc autoT gapT scoreFn
        = emptyChosen) := by
  refine ⟨⟨rfl, rfl⟩, ?_⟩
  intro hdec hres
  rw [rowChosen]
  simp only [hdec, hres]

def candA : Candidate := ⟨String.toList "aaa", [], [], 0, [], []⟩

def candB : Candidate := ⟨String.toList "bbb", [], [], 0, [], []⟩

/-- Witness for claim C8: a concrete escalation in which the user
declines every candidate yields the all-empty sentinel. -/
theorem C8_empty_resolution_witness :
    rowChosen [] [candA, candB] (fun _ => none) false (80/100) (12/100)
      (fun _ _ => 0) = emptyChosen :=
  (C8_empty_resolution [] (fun _ => none) false (80/100) (12/100)
    (fun _ _ => 0) candA candB [] [candA, candB]).2
    (by
      show decisionFromScores [candA, candB] [0, 0] false (80/100) (12/100)
        = .escalate [candA, candB]
      rw [decisionFromScores_two _ _ _ _ _ _ _ le_rfl]
      rw [if_neg (by push_neg; norm_num)])
    rfl

theorem searchLoop_isSome (oc : Nat → AttemptOutcome) (mr : Nat) :
    ∀ (k attempt : Nat), mr - attempt ≤ k → attempt < mr →
    ∃ l, (searchLoop oc mr attempt).1 = some l := by
  intro k
  induction k with
  | zero => intro attempt hk hlt; omega
  | succ k ih =>
    intro attempt hk hlt
    rw [searchLoop, if_pos hlt]
    cases hoc : oc attempt with
    | success cs => exact ⟨cs, rfl⟩
    | parseFail => exact ⟨[], rfl⟩
    | netFail =>
      by_cases h2 : attempt < mr - 1
      · rw [if_pos h2]
        obtain ⟨l, hl⟩ := ih (attempt + 1) (by omega) (by omega)
        exact ⟨l, hl⟩
      · rw [if_neg h2]
        exact ⟨[], rfl⟩

theorem searchLoop_allNet (oc : Nat → AttemptOutcome) (mr : Nat)
    (hnet : ∀ a, a < mr → oc a = .netFail) :
    ∀ (k attempt : Nat), mr - attempt ≤ k → attempt < mr →
    searchLoop oc mr attempt =
      (some [], (List.range' attempt (mr - 1 - attempt)).map fun a => 2 ^ a) := by
  intro k
  induction k with
  | zero => intro attempt hk hlt; omega
  | succ k ih =>
    intro attempt hk hlt
    rw [searchLoop, if_pos hlt, hnet attempt hlt]
    by_cases h2 : attempt < mr - 1
    · rw [if_pos h2]
      rw [ih (attempt + 1) (by omega) (by omega)]
      have hr : mr - 1 - attempt = (mr - 1 - (attempt + 1)) + 1 := by omega
      rw [hr, List.range'_succ]
      rfl
    · rw [if_neg h2]
      have h0 : mr - 1 - attempt = 0 := by omega
      rw [h0]
      rfl

/-- Claim C4 (counterexample): with `max_retries = 0` the `for` loop
body never runs and `search_goodreads` returns Python's implicit
`None`, so the caller does not receive a list. -/
theorem C4_zero_retries_counterexample :
    (search_goodreads (fun _ => .netFail) 0).1 = none := by
  rw [search_goodreads, searchLoop]
  rfl

/-- Claim C4 (amended): for every `max_retries ≥ 1` the fetcher returns
a list, never an exception: if every attempt hits a transient network
failure it retries `max_retries` times, sleeping `2^attempt` seconds
between consecutive attempts, and finally returns the empty list; a
non-retriable parse failure on the first attempt returns the empty list
immediately with no sleep. -/
theorem C4_retry_behavior (oc : Nat → AttemptOutcome) (mr : Nat) (hmr : 1 ≤ mr) :
    (∃ l, (search_goodreads oc mr).1 = some l) ∧
    ((∀ a, a < mr → oc a = .netFail) →
      search_goodreads oc mr =
        (some [], (List.range (mr - 1)).map fun a => 2 ^ a)) ∧
    (oc 0 = .parseFail → search_goodreads oc mr = (some [], [])) := by
  refine ⟨?_, ?_, ?_⟩
  · exact searchLoop_isSome oc mr mr 0 (by omega) (by omega)
  · intro hnet
    rw [search_goodreads, searchLoop_allNet oc mr hnet mr 0 (by omega) (by omega)]
    rw [List.range_eq_range', Nat.sub_zero]
  · intro hp
    rw [search_goodreads, searchLoop, if_pos (by omega), hp]

/-- Witness for the amended claim C4: three all-failing attempts sleep
one then two seconds and return the empty list. -/
theorem C4_retry_behavior_witness :
    search_goodreads (fun _ => .netFail) 3 = (some [], [1, 2]) := by
  have h := (C4_retry_behavior (fun _ => .netFail) 3 (by omega)).2.1 (fun a _ => rfl)
  exact h.trans rfl

/-! Lemmas for claim C5: the stable descending index sort. -/

theorem insertDescIdx_perm (key : Nat → ℚ) (i : Nat) :
    ∀ (l : List Nat), (insertDescIdx key i l).Perm (i :: l) := by
  intro l
  induction l with
  | nil => rw [insertDescIdx]
  | cons j rest ih =>
    rw [insertDescIdx]
    by_cases h : key j < key i
    · rw [if_pos h]
    · rw [if_neg h]
      exact (ih.cons j).trans (List.Perm.swap i j rest)

theorem sortIdxDesc_succ (key : Nat → ℚ) (n : Nat) :
    sortIdxDesc key (n + 1) = insertDescIdx key n (sortIdxDesc key n) := by
  show (List.range (n + 1)).foldl (fun acc i => insertDescIdx key i acc) [] = _
  rw [List.range_succ, List.foldl_append, List.foldl_cons, List.foldl_nil]
  rfl

theorem sortIdxDesc_perm (key : Nat → ℚ) :
    ∀ n, (sortIdxDesc key n).Perm (List.range n) := by
  intro n
  induction n with
  | zero => rfl
  | succ n ih =>
    rw [sortIdxDesc_succ]
    refine ((insertDescIdx_perm key n _).trans ((ih.cons n).trans ?_))
    rw [List.range_succ]
    exact (List.perm_append_singleton n _).symm

/-- Stable descending order on indices: an earlier index comes first
among equal keys. -/
def StableRel (key : Nat → ℚ) (a b : Nat) : Prop :=
  key b < key a ∨ (key a = key b ∧ a < b)

theorem insertDescIdx_pairwise (key : Nat → ℚ) (i : Nat) :
    ∀ (l : List Nat), l.Pairwise (StableRel key) → (∀ j ∈ l, j < i) →
    (insertDescIdx key i l).Pairwise (StableRel key) := by
  intro l
  induction l with
  | nil =>
    intro _ _
    rw [insertDescIdx]
    exact List.pairwise_singleton _ _
  | cons j rest ih =>
    intro hp hlt
    rw [insertDescIdx]
    by_cases h : key j < key i
    · rw [if_pos h]
      refine List.Pairwise.cons ?_ hp
      intro x hx
      rcases List.mem_cons.mp hx with rfl | hxr
      · exact Or.inl h
      · rcases (List.pairwise_cons.mp hp).1 x hxr with h1 | ⟨h1, _⟩
        · exact Or.inl (lt_trans h1 h)
        · exact Or.inl (h1 ▸ h)
    · rw [if_neg h]
      refine List.Pairwise.cons ?_
        (ih (List.pairwise_cons.mp hp).2
          (fun x hx => hlt x (List.mem_cons_of_mem _ hx)))
      intro x hx
      have hx2 : x ∈ i :: rest := (insertDescIdx_perm key i rest).mem_iff.mp hx
      rcases List.mem_cons.mp hx2 with rfl | hxr
      · rcases lt_or_eq_of_le (not_lt.mp h) with h1 | h1
        · exact Or.inl h1
        · exact Or.inr ⟨h1.symm, hlt j (List.mem_cons_self _ _)⟩
      · exact (List.pairwise_cons.mp hp).1 x hxr

theorem sortIdxDesc_props (key : Nat → ℚ) :
    ∀ n, (sortIdxDesc key n).Pairwise (StableRel key) ∧
      ∀ j ∈ sortIdxDesc key n, j < n := by
  intro n
  induction n with
  | zero =>
    constructor
    · exact List.Pairwise.nil
    · intro j hj; cases hj
  | succ n ih =>
    constructor
    · rw [sortIdxDesc_succ]
      exact insertDescIdx_pairwise key n _ ih.1 ih.2
    · intro j hj
      rw [sortIdxDesc_succ] at hj
      have hj2 := (insertDescIdx_perm key n _).mem_iff.mp hj
      rcases List.mem_cons.mp hj2 with rfl | h2
      · omega
      · have := ih.2 j h2; omega

/-- Claim C5: with two or more candidates the decision block sorts the
candidates in descending score order with ties kept in original fetch
order, and an escalation hands the Manual Resolution Interface exactly
that list: `ordered` is the image of an index list that is a
permutation of all candidate positions, pairwise descending by score
with ties in ascending fetch position. -/
theorem C5_escalation_order {α : Type} [Inhabited α] (candidates : List α)
    (scores : List ℚ) (nc : Bool) (autoT gapT : ℚ) (ordered : List α)
    (hlen : scores.length = candidates.length)
    (hdec : decisionFromScores candidates scores nc autoT gapT
      = .escalate ordered) :
    ∃ idx : List Nat,
      ordered = idx.map (fun i => candidates.getD i default) ∧
      idx.Perm (List.range candidates.length) ∧
      idx.Pairwise (fun i j => scores.getD j 0 < scores.getD i 0 ∨
        (scores.getD i 0 = scores.getD j 0 ∧ i < j)) := by
  rw [decisionFromScores] at hdec
  refine ⟨sortIdxDesc (fun i => scores.getD i 0) scores.length, ?_, ?_, ?_⟩
  · split at hdec <;> split at hdec
    all_goals first
      | exact MultiDecision.noConfusion hdec
      | (simp only [MultiDecision.escalate.injEq] at hdec
         rw [← hdec])
  · rw [← hlen]
    exact sortIdxDesc_perm _ _
  · exact (sortIdxDesc_props (fun i => scores.getD i 0) scores.length).1

/-- Witness for claim C5: two candidates with ascending scores under
high thresholds escalate in swapped (descending-score) order. -/
theorem C5_escalation_order_witness :
    ∃ idx : List Nat,
      ([20, 10] : List Nat) = idx.map (fun i => ([10, 20] : List Nat).getD i default) ∧
      idx.Perm (List.range 2) ∧
      idx.Pairwise (fun i j => (([1, 3] : List ℚ).getD j 0 < ([1, 3] : List ℚ).getD i 0 ∨
        (([1, 3] : List ℚ).getD i 0 = ([1, 3] : List ℚ).getD j 0 ∧ i < j))) := by
  have hsort : sortIdxDesc (fun i => ([1, 3] : List ℚ).getD i 0)
      ([1, 3] : List ℚ).length = [1, 0] := by decide
  have hdec : decisionFromScores ([10, 20] : List Nat) [1, 3] false 10 10
      = .escalate [20, 10] := by
    rw [decisionFromScores, hsort]
    norm_num [List.getD_cons_zero, List.getD_cons_succ]
  exact C5_escalation_order ([10, 20] : List Nat) [1, 3] false 10 10 [20, 10]
    rfl hdec

/-- Claim C10: when both the query and the candidate title normalize to
the empty string, the fallback score is `0.6 * 0 + 0.4 * 1 = 0.4`
(= 2/5): the Jaccard term hits its guard and the sequence ratio of two
empty strings is 1. -/
theorem C10_both_empty (q t : Str)
    (hq : normalize_title q = []) (ht : normalize_title t = []) :
    fallbackScore (normalize_title q) (normalize_title t) = 2 / 5 := by
  rw [hq, ht]
  have h1 : ratioQ ([] : Str) ([] : Str) = 1 := rfl
  rw [fallbackScore, h1]
  norm_num [splitWs_nil]

/-- Witness for claim C10: a punctuation-only query against a
keyword-only title both normalize to the empty string and score 0.4. -/
theorem C10_both_empty_witness :
    normalize_title (String.toList "%%%") = [] ∧
    normalize_title (String.toList "edition") = [] ∧
    fallbackScore (normalize_title (String.toList "%%%"))
      (normalize_title (String.toList "edition")) = 2 / 5 :=
  ⟨by decide, by decide,
    C10_both_empty (String.toList "%%%") (String.toList "edition")
      (by decide) (by decide)⟩

/-! Lemmas for claim C9: frame conditions of the dataframe pass. -/

/-- The five enrichment column names, in assignment order. -/
def enrichNames : List Str := enrichCols.map Prod.fst

theorem assignColumn_fresh (t : Table) (c : Str) (v : Value)
    (h : c ∉ t.header) :
    assignColumn t c v = ⟨t.header ++ [c], t.rows.map fun r => r ++ [v]⟩ := by
  have hnone : colIdx t c = none := by
    rw [colIdx, List.findIdx?_eq_none_iff]
    intro x hx
    cases hbe : x == c
    · rfl
    · exact absurd (eq_of_beq hbe ▸ hx) h
  rw [assignColumn, hnone]

theorem foldl_assign_fresh : ∀ (ps : List (Str × Value)) (t : Table),
    (ps.map Prod.fst).Nodup → (∀ c ∈ ps.map Prod.fst, c ∉ t.header) →
    ps.foldl (fun acc p => assignColumn acc p.1 p.2) t =
      ⟨t.header ++ ps.map Prod.fst, t.rows.map fun r => r ++ ps.map Prod.snd⟩ := by
  intro ps
  induction ps with
  | nil =>
    intro t _ _
    simp only [List.foldl_nil, List.map_nil, List.append_nil]
    cases t with
    | mk h r => simp
  | cons p ps ih =>
    intro t hnd hfr
    rw [List.foldl_cons,
      assignColumn_fresh t p.1 p.2
        (hfr p.1 (by rw [List.map_cons]; exact List.mem_cons_self _ _)),
      ih ⟨t.header ++ [p.1], t.rows.map fun r => r ++ [p.2]⟩
        (List.nodup_cons.mp hnd).2 ?fresh]
    case fresh =>
      intro c hc
      simp only [List.mem_append, List.mem_singleton]
      rintro (h1 | h1)
      · exact hfr c (List.mem_cons_of_mem _ hc) h1
      · exact (List.nodup_cons.mp hnd).1 (h1 ▸ hc)
    simp only [List.map_cons, List.map_map]
    congr 1
    · simp [List.append_assoc]
    · apply List.map_congr_left
      intro r _
      simp [List.append_assoc]

theorem initColumns_spec (df : Table)
    (hdisj : ∀ c ∈ enrichNames, c ∉ df.header) :
    initColumns df = ⟨df.header ++ enrichNames,
      df.rows.map fun r => r ++ enrichCols.map Prod.snd⟩ :=
  foldl_assign_fresh enrichCols df (by decide) hdisj

/-- The rows-and-header shape preserved by the enrichment loop: the
header is the original one plus the five new names, row count is
unchanged, and every original row is a prefix of its output row with
exactly five extra cells. -/
def FramePres (df t : Table) : Prop :=
  t.header = df.header ++ enrichNames ∧
  t.rows.length = df.rows.length ∧
  ∀ i, i < df.rows.length →
    ∃ extra, extra.length = 5 ∧ t.rows.getD i [] = df.rows.getD i [] ++ extra

theorem framePres_init (df : Table)
    (hdisj : ∀ c ∈ enrichNames, c ∉ df.header) :
    FramePres df (initColumns df) := by
  rw [initColumns_spec df hdisj]
  refine ⟨rfl, by simp, ?_⟩
  intro i hi
  refine ⟨enrichCols.map Prod.snd, by decide, ?_⟩
  simp [List.getD_eq_getElem?_getD, List.getElem?_map, List.getElem?_eq_getElem hi]

theorem colIdx_enrich (df t : Table) (ht : t.header = df.header ++ enrichNames)
    (hdisj : ∀ c ∈ enrichNames, c ∉ df.header) (c : Str) (hc : c ∈ enrichNames) :
    ∃ ci, colIdx t c = some ci ∧ df.header.length ≤ ci := by
  rw [colIdx, ht, List.findIdx?_append]
  have h1 : df.header.findIdx? (· == c) = none := by
    rw [List.findIdx?_eq_none_iff]
    intro x hx
    cases hbe : x == c
    · rfl
    · exact absurd (eq_of_beq hbe ▸ hx) (hdisj c hc)
  rw [h1, Option.none_or]
  cases h2 : enrichNames.findIdx? (· == c) with
  | none =>
    rw [List.findIdx?_eq_none_iff] at h2
    have := h2 c hc
    simp at this
  | some k =>
    exact ⟨k + df.header.length, rfl, by omega⟩

theorem setCell_pres (df t : Table) (ht : FramePres df t)
    (hdisj : ∀ c ∈ enrichNames, c ∉ df.header)
    (hrect : ∀ r ∈ df.rows, r.length = df.header.length)
    (i : Nat) (hi : i < df.rows.length)
    (c : Str) (hc : c ∈ enrichNames) (v : Value) :
    FramePres df (setCell t i c v) := by
  obtain ⟨hH, hL, hR⟩ := ht
  obtain ⟨ci, hci, hcige⟩ := colIdx_enrich df t hH hdisj c hc
  rw [setCell, hci]
  refine ⟨hH, ?_, ?_⟩
  · simp [List.length_set, hL]
  · intro j hj
    by_cases hij : i = j
    · subst hij
      obtain ⟨extra, hel, hrow⟩ := hR i hi
      have horig : (df.rows.getD i []).length = df.header.length := by
        rw [List.getD_eq_getElem?_getD, List.getElem?_eq_getElem hi]
        exact hrect _ (List.getElem_mem hi)
      refine ⟨extra.set (ci - df.header.length) v, by simp [List.length_set, hel], ?_⟩
      have hit : i < t.rows.length := by omega
      show (t.rows.set i ((t.rows.getD i []).set ci v)).getD i [] = _
      rw [List.getD_eq_getElem?_getD, List.getElem?_set_self hit, Option.getD_some,
        hrow, List.set_append, if_neg (by omega), horig]
    · obtain ⟨extra, hel, hrow⟩ := hR j hj
      refine ⟨extra, hel, ?_⟩
      show (t.rows.set i ((t.rows.getD i []).set ci v)).getD j [] = _
      rw [List.getD_eq_getElem?_getD, List.getElem?_set_ne hij,
        ← List.getD_eq_getElem?_getD]
      exact hrow

theorem enrichRow_pres (df t : Table) (bc : Str) (ht : FramePres df t)
    (hdisj : ∀ c ∈ enrichNames, c ∉ df.header)
    (hrect : ∀ r ∈ df.rows, r.length = df.header.length)
    (i : Nat) (hi : i < df.rows.length)
    (cand : List Candidate) (res : List Candidate → Option Candidate)
    (nc : Bool) (aT gT : ℚ) (sf : Str → Str → ℚ) :
    FramePres df (enrichRow t bc i cand res nc aT gT sf) := by
  rw [enrichRow]
  by_cases hna : isNaOrEmpty (getCell t i bc) = true
  · rw [if_pos hna]; exact ht
  · rw [if_neg hna]
    refine setCell_pres df _ ?_ hdisj hrect i hi _ (by decide) _
    refine setCell_pres df _ ?_ hdisj hrect i hi _ (by decide) _
    refine setCell_pres df _ ?_ hdisj hrect i hi _ (by decide) _
    refine setCell_pres df _ ?_ hdisj hrect i hi _ (by decide) _
    exact setCell_pres df _ ht hdisj hrect i hi _ (by decide) _

theorem foldl_enrich_pres (df : Table) (bc : Str)
    (fetchO : Nat → List Candidate)
    (resolveO : Nat → List Candidate → Option Candidate)
    (nc : Bool) (aT gT : ℚ) (sf : Str → Str → ℚ)
    (hdisj : ∀ c ∈ enrichNames, c ∉ df.header)
    (hrect : ∀ r ∈ df.rows, r.length = df.header.length) :
    ∀ (l : List Nat) (t : Table), (∀ i ∈ l, i < df.rows.length) → FramePres df t →
    FramePres df (l.foldl
      (fun acc i => enrichRow acc bc i (fetchO i) (resolveO i) nc aT gT sf) t) := by
  intro l
  induction l with
  | nil => intro t _ ht; exact ht
  | cons i l ih =>
    intro t hmem ht
    rw [List.foldl_cons]
    exact ih _ (fun j hj => hmem j (List.mem_cons_of_mem _ hj))
      (enrichRow_pres df t bc ht hdisj hrect i (hmem i (List.mem_cons_self _ _))
        _ _ nc aT gT sf)

/-- A colliding input: the CSV already has an `author` column. -/
def dfCollide : Table :=
  ⟨[String.toList "title", String.toList "author"],
   [[.vstr (String.toList "hobbit"), .vstr (String.toList "X")]]⟩

/-- Claim C9 (counterexample): when the input already has a column named
`author`, the pandas column assignment `df['author'] = ''` overwrites it
in place, so the original cell value `"X"` is not preserved — the output
holds the empty string there. -/
theorem C9_overwrite_counterexample :
    getCell dfCollide 0 (String.toList "author")
      = .vstr (String.toList "X") ∧
    (process_book_csv dfCollide (String.toList "title") (fun _ => [])
        (fun _ _ => none) false 0 0 (fun _ _ => 0)).map
      (fun out => getCell out 0 (String.toList "author")) = .ok (.vstr []) :=
  ⟨rfl, rfl⟩

/-- Claim C9 (amended): provided none of the five enrichment column
names already occurs in the input header and the input is rectangular, a
successful run keeps the original header as a prefix followed by exactly
the five new names, produces one output row per input row in order, and
every output row is its input row with exactly five appended cells — so
all original columns and values are preserved. -/
theorem C9_frame (df : Table) (book_column : Str)
    (fetchO : Nat → List Candidate)
    (resolveO : Nat → List Candidate → Option Candidate)
    (no_confirm : Bool) (autoT gapT : ℚ) (scoreFn : Str → Str → ℚ) (out : Table)
    (hdisj : ∀ c ∈ enrichNames, c ∉ df.header)
    (hrect : ∀ r ∈ df.rows, r.length = df.header.length)
    (hok : process_book_csv df book_column fetchO resolveO no_confirm
      autoT gapT scoreFn = .ok out) :
    out.header = df.header ++ enrichNames ∧
    out.rows.length = df.rows.length ∧
    ∀ i, i < df.rows.length →
      ∃ extra, extra.length = 5 ∧
        out.rows.getD i [] = df.rows.getD i [] ++ extra := by
  rw [process_book_csv] at hok
  split at hok
  · exact Except.noConfusion hok
  · simp only [Except.ok.injEq] at hok
    subst hok
    have h0 := framePres_init df hdisj
    exact foldl_enrich_pres df book_column fetchO resolveO no_confirm autoT gapT
      scoreFn hdisj hrect (List.range (initColumns df).rows.length)
      (initColumns df)
      (fun i hi => by rw [← h0.2.1]; exact List.mem_range.mp hi) h0

/-- A well-formed input for the frame theorem. -/
def df1 : Table := ⟨[String.toList "title"], [[.vstr (String.toList "hobbit")]]⟩

/-- The corresponding output table. -/
def out1 : Table :=
  ⟨String.toList "title" :: enrichNames,
   [[.vstr (String.toList "hobbit"), .vstr [], .vstr [], .vstr [],
     .vnat 0, .vstr []]]⟩

/-- Witness for the amended claim C9 on a one-row, one-column table. -/
theorem C9_frame_witness :
    out1.header = df1.header ++ enrichNames ∧
    out1.rows.length = df1.rows.length ∧
    ∀ i, i < df1.rows.length →
      ∃ extra, extra.length = 5 ∧
        out1.rows.getD i [] = df1.rows.getD i [] ++ extra :=
  C9_frame df1 (String.toList "title") (fun _ => []) (fun _ _ => none)
    false 0 0 (fun _ _ => 0) out1 (by decide) (by decide) rfl

/-! Lemmas for claim C6: on identical sequences the matcher's dynamic
programming pass keeps its running best match on the main diagonal
(off-diagonal chains are dominated by a diagonal chain that is processed
earlier), and the extension loops then grow it to the whole string. -/

/-- A position participates in the index `b2j` iff its character is not
autojunk-popular. -/
def liveAt (a : Str) (i : Nat) : Bool := !isPopular a (a.getD i ' ')

/-- Length of the maximal run of live positions ending at `i`. -/
def diagRun (a : Str) : Nat → Nat
  | 0 => if liveAt a 0 then 1 else 0
  | i + 1 => if liveAt a (i + 1) then diagRun a i + 1 else 0

theorem diagRun_of_not_live {a : Str} {m : Nat} (h : liveAt a m = false) :
    diagRun a m = 0 := by
  cases m with
  | zero => simp [diagRun, h]
  | succ m => simp [diagRun, h]

theorem diagRun_succ_live {a : Str} {m : Nat} (h : liveAt a (m + 1) = true) :
    diagRun a (m + 1) = diagRun a m + 1 := by
  simp [diagRun, h]

theorem diagRun_pos_live {a : Str} {m : Nat} (h : liveAt a m = true) :
    1 ≤ diagRun a m := by
  cases m with
  | zero => simp [diagRun, h]
  | succ m => simp [diagRun, h]

theorem mem_positionsOf {a : Str} {c : Char} {j : Nat} :
    j ∈ positionsOf a c ↔ j < a.length ∧ a.getD j ' ' = c := by
  simp [positionsOf, List.mem_filter, List.mem_range]

theorem mem_b2j {a : Str} {c : Char} {j : Nat} (h : j ∈ b2j a c) :
    j < a.length ∧ a.getD j ' ' = c ∧ isPopular a c = false := by
  rw [b2j] at h
  by_cases hp : isPopular a c = true
  · rw [if_pos hp] at h; cases h
  · rw [if_neg hp] at h
    have h2 := mem_positionsOf.mp h
    exact ⟨h2.1, h2.2, by simpa using hp⟩

theorem liveAt_of_mem_b2j {a : Str} {i j : Nat}
    (h : j ∈ b2j a (a.getD i ' ')) : liveAt a j = true ∧ liveAt a i = true := by
  obtain ⟨hj, he, hp⟩ := mem_b2j h
  constructor
  · rw [liveAt, he, hp]; rfl
  · rw [liveAt, hp]; rfl

theorem self_mem_b2j {a : Str} {i : Nat} (hi : i < a.length)
    (hl : liveAt a i = true) : i ∈ b2j a (a.getD i ' ') := by
  rw [b2j, if_neg ?_, mem_positionsOf]
  · exact ⟨hi, rfl⟩
  · rw [liveAt] at hl
    simpa using hl

theorem b2j_sorted (a : Str) (c : Char) : (b2j a c).Pairwise (· < ·) := by
  rw [b2j]
  split
  · exact List.Pairwise.nil
  · exact List.Pairwise.sublist (List.filter_sublist _) (List.pairwise_lt_range _)

theorem lookup_none_of_keys : ∀ (l : List (Nat × Nat)) (k : Nat),
    (∀ p ∈ l, p.1 ≠ k) → l.lookup k = none := by
  intro l
  induction l with
  | nil => intro k _; rfl
  | cons p rest ih =>
    intro k h
    cases p with
    | mk x y =>
      rw [List.lookup]
      split
      · rename_i heq
        have hk : k = x := by simpa using heq
        exact absurd hk.symm (h (x, y) (List.mem_cons_self _ _))
      · exact ih k fun p hp => h p (List.mem_cons_of_mem _ hp)

theorem lookup_cons_ne (u v : Nat) (l : List (Nat × Nat)) (k : Nat)
    (h : ¬k = u) : List.lookup k ((u, v) :: l) = List.lookup k l := by
  rw [List.lookup]
  split
  · rename_i heq
    exact absurd (by simpa using heq) h
  · rfl

theorem lookup_cons_self (u v : Nat) (l : List (Nat × Nat)) :
    List.lookup u ((u, v) :: l) = some v := by
  rw [List.lookup]
  split
  · rfl
  · rename_i hne
    simp at hne

theorem innerLoop_diag (a : Str) (i : Nat) (hlive : liveAt a i = true) :
    ∀ (js : List Nat) (d acc : List (Nat × Nat)) (best : BestMatch),
    (∀ j ∈ js, j ∈ b2j a (a.getD i ' ')) →
    js.Pairwise (· < ·) →
    (∀ p ∈ d, p.2 ≤ diagRun a (i - 1) ∧ liveAt a p.1 = true ∧
      p.2 ≤ diagRun a p.1) →
    (1 ≤ i → liveAt a (i - 1) = true →
      d.lookup (i - 1) = some (diagRun a (i - 1))) →
    (i = 0 → d = []) →
    (∀ p ∈ acc, p.2 ≤ diagRun a i ∧ liveAt a p.1 = true ∧
      p.2 ≤ diagRun a p.1) →
    best.besti = best.bestj →
    (∀ j', j' < i → diagRun a j' ≤ best.bestsize) →
    (i ∈ js ∨ (diagRun a i ≤ best.bestsize ∧
      acc.lookup i = some (diagRun a i))) →
    (innerLoop d 0 a.length i js acc best).2.besti
        = (innerLoop d 0 a.length i js acc best).2.bestj ∧
    (∀ j', j' < i + 1 →
      diagRun a j' ≤ (innerLoop d 0 a.length i js acc best).2.bestsize) ∧
    (∀ p ∈ (innerLoop d 0 a.length i js acc best).1,
      p.2 ≤ diagRun a i ∧ liveAt a p.1 = true ∧ p.2 ≤ diagRun a p.1) ∧
    (innerLoop d 0 a.length i js acc best).1.lookup i
      = some (diagRun a i) := by
  intro js
  induction js with
  | nil =>
    intro d acc best _ _ _ _ _ hacc hdiag hJ2 hsplit
    rw [innerLoop]
    rcases hsplit with h | ⟨h1, h2⟩
    · exact absurd h (List.not_mem_nil i)
    · refine ⟨hdiag, ?_, hacc, h2⟩
      intro j' hj'
      rcases Nat.lt_succ_iff_lt_or_eq.mp hj' with h | h
      · exact hJ2 j' h
      · subst h; exact h1
  | cons j js ih =>
    intro d acc best hjs hpw hd hlook hd0 hacc hdiag hJ2 hsplit
    have hjb := hjs j (List.mem_cons_self _ _)
    obtain ⟨hjlen, hjeq, hjpop⟩ := mem_b2j hjb
    have hjlive : liveAt a j = true := (liveAt_of_mem_b2j hjb).1
    rw [innerLoop, if_neg (Nat.not_lt_zero j), if_neg (by omega)]
    simp only []
    set k := if j = 0 then 1 else (d.lookup (j - 1)).getD 0 + 1 with hkdef
    set best1 := if best.bestsize < k then
      (⟨i + 1 - k, j + 1 - k, k⟩ : BestMatch) else best with hb1def
    have hkd : k ≤ diagRun a i ∧ k ≤ diagRun a j := by
      rw [hkdef]
      split
      · refine ⟨diagRun_pos_live hlive, ?_⟩
        rename_i h0
        subst h0
        exact diagRun_pos_live hjlive
      · rename_i hj0
        cases hl : d.lookup (j - 1) with
        | none =>
          simp only [Option.getD_none]
          have hpi := diagRun_pos_live hlive
          have hpj := diagRun_pos_live hjlive
          omega
        | some v =>
          have hm := hd _ (lookupMem d (j - 1) v hl)
          have hm1 : v ≤ diagRun a (i - 1) := hm.1
          have hm3 : v ≤ diagRun a (j - 1) := hm.2.2
          simp only [Option.getD_some]
          constructor
          · rcases Nat.eq_zero_or_pos i with hi0 | hi0
            · rw [hd0 hi0] at hl; cases hl
            · have hsucc : diagRun a i = diagRun a (i - 1) + 1 := by
                cases i with
                | zero => omega
                | succ m => simpa using diagRun_succ_live hlive
              omega
          · have hsucc : diagRun a j = diagRun a (j - 1) + 1 := by
              cases j with
              | zero => exact absurd rfl hj0
              | succ m => simpa using diagRun_succ_live hjlive
            omega
    have hkex : j = i → k = diagRun a i := by
      intro hji
      subst hji
      rw [hkdef]
      split
      · rename_i h0
        rw [h0] at hlive ⊢
        simp [diagRun, hlive]
      · rename_i hj0
        by_cases hlm : liveAt a (j - 1) = true
        · rw [hlook (by omega) hlm]
          simp only [Option.getD_some]
          have hsucc : diagRun a j = diagRun a (j - 1) + 1 := by
            cases j with
            | zero => exact absurd rfl hj0
            | succ m => simpa using diagRun_succ_live hlive
          omega
        · have hnone : d.lookup (j - 1) = none := by
            apply lookup_none_of_keys
            intro p hp hpk
            have hpl := (hd p hp).2.1
            rw [hpk] at hpl
            exact absurd hpl hlm
          rw [hnone]
          simp only [Option.getD_none]
          have h1 : diagRun a (j - 1) = 0 :=
            diagRun_of_not_live (by simpa using hlm)
          have hsucc : diagRun a j = diagRun a (j - 1) + 1 := by
            cases j with
            | zero => exact absurd rfl hj0
            | succ m => simpa using diagRun_succ_live hlive
          omega
    have hmono : best.bestsize ≤ best1.bestsize := by
      rw [hb1def]
      split
      · rename_i h
        exact Nat.le_of_lt h
      · exact le_rfl
    have hacc' : ∀ p ∈ (j, k) :: acc, p.2 ≤ diagRun a i ∧
        liveAt a p.1 = true ∧ p.2 ≤ diagRun a p.1 := by
      intro p hp
      rcases List.mem_cons.mp hp with rfl | hp2
      · exact ⟨hkd.1, hjlive, hkd.2⟩
      · exact hacc p hp2
    rcases Nat.lt_trichotomy j i with hji | hji | hji
    · have hnup : best1 = best := by
        rw [hb1def, if_neg (Nat.not_lt.mpr (le_trans hkd.2 (hJ2 j hji)))]
      rw [hnup]
      apply ih d ((j, k) :: acc) best
        (fun x hx => hjs x (List.mem_cons_of_mem _ hx))
        (List.pairwise_cons.mp hpw).2 hd hlook hd0 hacc' hdiag hJ2
      rcases hsplit with h | ⟨h1, h2⟩
      · rcases List.mem_cons.mp h with h3 | h4
        · omega
        · exact Or.inl h4
      · refine Or.inr ⟨h1, ?_⟩
        rw [lookup_cons_ne j k acc i (by omega)]
        exact h2
    · subst hji
      have hke := hkex rfl
      have hd1 : best1.besti = best1.bestj := by
        rw [hb1def]
        split
        · rfl
        · exact hdiag
      have hdle : diagRun a j ≤ best1.bestsize := by
        rw [hb1def]
        split
        · rename_i h
          show diagRun a j ≤ k
          omega
        · rename_i h
          show diagRun a j ≤ best.bestsize
          omega
      apply ih d ((j, k) :: acc) best1
        (fun x hx => hjs x (List.mem_cons_of_mem _ hx))
        (List.pairwise_cons.mp hpw).2 hd hlook hd0 hacc' hd1
        (fun j' hj' => le_trans (hJ2 j' hj') hmono)
      refine Or.inr ⟨hdle, ?_⟩
      rw [lookup_cons_self j k acc, hke]
    · have hright : diagRun a i ≤ best.bestsize ∧
          acc.lookup i = some (diagRun a i) := by
        rcases hsplit with h | h
        · rcases List.mem_cons.mp h with h3 | h4
          · omega
          · have := (List.pairwise_cons.mp hpw).1 i h4
            omega
        · exact h
      have hnup : best1 = best := by
        rw [hb1def, if_neg (Nat.not_lt.mpr (le_trans hkd.1 hright.1))]
      rw [hnup]
      apply ih d ((j, k) :: acc) best
        (fun x hx => hjs x (List.mem_cons_of_mem _ hx))
        (List.pairwise_cons.mp hpw).2 hd hlook hd0 hacc' hdiag hJ2
      refine Or.inr ⟨hright.1, ?_⟩
      rw [lookup_cons_ne j k acc i (by omega)]
      exact hright.2

theorem dpLoop_diag (a : Str) :
    ∀ (cnt i0 : Nat) (d : List (Nat × Nat)) (best : BestMatch),
    i0 + cnt = a.length →
    (∀ p ∈ d, p.2 ≤ diagRun a (i0 - 1) ∧ liveAt a p.1 = true ∧
      p.2 ≤ diagRun a p.1) →
    (1 ≤ i0 → liveAt a (i0 - 1) = true →
      d.lookup (i0 - 1) = some (diagRun a (i0 - 1))) →
    (i0 = 0 → d = []) →
    best.besti = best.bestj →
    (∀ j', j' < i0 → diagRun a j' ≤ best.bestsize) →
    (dpLoop a a 0 a.length (List.range' i0 cnt) d best).besti
      = (dpLoop a a 0 a.length (List.range' i0 cnt) d best).bestj := by
  intro cnt
  induction cnt with
  | zero =>
    intro i0 d best _ _ _ _ hdiag _
    rw [List.range', dpLoop]
    exact hdiag
  | succ cnt ih =>
    intro i0 d best hsum hd hlook hd0 hdiag hJ2
    rw [List.range'_succ, dpLoop]
    by_cases hl : liveAt a i0 = true
    · have hcall := innerLoop_diag a i0 hl (b2j a (a.getD i0 ' ')) d [] best
        (fun _ hx => hx) (b2j_sorted a _) hd hlook hd0
        (fun p hp => absurd hp (List.not_mem_nil p))
        hdiag hJ2
        (Or.inl (self_mem_b2j (by omega) hl))
      exact ih (i0 + 1)
        (innerLoop d 0 a.length i0 (b2j a (a.getD i0 ' ')) [] best).1
        (innerLoop d 0 a.length i0 (b2j a (a.getD i0 ' ')) [] best).2
        (by omega) hcall.2.2.1 (fun _ _ => hcall.2.2.2)
        (fun h => absurd h (Nat.succ_ne_zero i0))
        hcall.1 hcall.2.1
    · have hb : b2j a (a.getD i0 ' ') = [] := by
        rw [b2j, if_pos ?_]
        have h2 : liveAt a i0 = false := by simpa using hl
        rw [liveAt] at h2
        simpa using h2
      rw [hb, innerLoop]
      exact ih (i0 + 1) [] best (by omega)
        (fun p hp => absurd hp (List.not_mem_nil p))
        (fun _ hlv => absurd hlv hl)
        (fun _ => rfl)
        hdiag
        (by
          intro j' hj'
          rcases Nat.lt_succ_iff_lt_or_eq.mp hj' with h | h
          · exact hJ2 j' h
          · subst h
            rw [diagRun_of_not_live (by simpa using hl)]
            omega)

theorem extendLo_diag (a : Str) : ∀ (b s : Nat),
    extendLo a a 0 0 false b b s = (0, 0, s + b) := by
  intro b
  induction b with
  | zero =>
    intro s
    rw [extendLo, dif_neg (fun h => absurd h.1 (lt_irrefl 0))]
    rfl
  | succ b ih =>
    intro s
    rw [extendLo, dif_pos ⟨Nat.succ_pos b, Nat.succ_pos b, rfl, rfl⟩]
    rw [show b + 1 - 1 = b from rfl, ih (s + 1),
      show s + 1 + b = s + (b + 1) from by omega]

theorem extendHi_diag (a : Str) : ∀ (d s : Nat),
    a.length - s ≤ d → s ≤ a.length →
    extendHi a a a.length a.length false 0 0 s = a.length := by
  intro d
  induction d with
  | zero =>
    intro s hd hs
    rw [extendHi, dif_neg (fun h => absurd h.1 (by omega))]
    omega
  | succ d ih =>
    intro s hd hs
    by_cases hlt : s < a.length
    · rw [extendHi, dif_pos ⟨by omega, by omega, rfl, rfl⟩]
      exact ih (s + 1) (by omega) (by omega)
    · rw [extendHi, dif_neg (fun h => absurd h.1 (by omega))]
      omega

theorem extendLo_junk (a : Str) (n : Nat) :
    extendLo a a 0 0 true 0 0 n = (0, 0, n) := by
  rw [extendLo, dif_neg (fun h => absurd h.1 (lt_irrefl 0))]

theorem extendHi_junk (a : Str) :
    extendHi a a a.length a.length true 0 0 a.length = a.length := by
  rw [extendHi, dif_neg (fun h => absurd h.1 (by omega))]

/-- `find_longest_match` over the full window of two identical sequences
returns the whole string. -/
theorem flm_self (a : Str) :
    findLongestMatch a a 0 a.length 0 a.length = ⟨0, 0, a.length⟩ := by
  have h1 := dpLoop_inv a a 0 a.length 0 a.length (a.length - 0) 0 [] ⟨0, 0, 0⟩
    le_rfl (by omega) (by intro p hp; simp at hp) (Or.inl ⟨rfl, rfl, rfl⟩)
  have h2 := dpLoop_diag a (a.length - 0) 0 [] ⟨0, 0, 0⟩ (by omega)
    (by intro p hp; simp at hp) (fun h => absurd h (by omega))
    (fun _ => rfl) rfl (by intro j' hj'; omega)
  unfold findLongestMatch
  set m0 := dpLoop a a 0 a.length (List.range' 0 (a.length - 0)) [] ⟨0, 0, 0⟩
    with hm0
  have hbs : m0.besti + m0.bestsize ≤ a.length := by
    rcases h1 with ⟨hz, hbi, _⟩ | ⟨_, _, _, h1d, _⟩
    · omega
    · exact h1d
  have he1 : extendLo a a 0 0 false m0.besti m0.bestj m0.bestsize
      = (0, 0, m0.bestsize + m0.besti) := by
    rw [← h2]
    exact extendLo_diag a m0.besti m0.bestsize
  dsimp only
  rw [he1]
  dsimp only
  rw [extendHi_diag a (a.length - (m0.bestsize + m0.besti))
    (m0.bestsize + m0.besti) le_rfl (by omega)]
  rw [extendLo_junk]
  dsimp only
  rw [extendHi_junk]

theorem mbg_self (a : Str) (hn : 1 ≤ a.length) :
    matchingBlocksGo a a [(0, a.length, 0, a.length)] []
      = [⟨0, 0, a.length⟩] := by
  rw [matchingBlocksGo, flm_self a]
  rw [dif_neg (fun h => absurd (show a.length = 0 from h) (by omega))]
  simp only []
  rw [if_neg (fun h =>
    absurd (show 0 + a.length < a.length from h.1) (by omega))]
  rw [if_neg (fun h => absurd (show (0 : Nat) < 0 from h.1) (lt_irrefl 0))]
  rw [matchingBlocksGo]

theorem getMatchingBlocks_self (a : Str) (hn : 1 ≤ a.length) :
    getMatchingBlocks a a = [(0, 0, a.length), (a.length, a.length, 0)] := by
  rw [getMatchingBlocks, mbg_self a hn]
  simp only [List.map_cons, List.map_nil]
  rw [show sortBlocks [(0, 0, a.length)] = [(0, 0, a.length)] from rfl]
  rw [mergeAdjGo, if_pos ⟨rfl, rfl⟩, mergeAdjGo, if_pos (by omega)]
  simp

/-- `SequenceMatcher(None, a, a).ratio()` is `1` for every `a`,
autojunk included. -/
theorem ratioQ_self (a : Str) : ratioQ a a = 1 := by
  rcases Nat.eq_zero_or_pos a.length with h0 | hp
  · have ha : a = [] := List.length_eq_zero.mp h0
    subst ha; rfl
  · rw [ratioQ, getMatchingBlocks_self a hp]
    simp only [List.map_cons, List.map_nil, List.sum_cons, List.sum_nil]
    rw [if_pos (by omega)]
    have hq : (a.length : ℚ) ≠ 0 := Nat.cast_ne_zero.mpr (by omega)
    push_cast
    field_simp
    ring

/-- Claim C6: under the fallback similarity algorithm the scorer is
reflexive on nonempty normalized strings: the token sets coincide
(Jaccard term 1) and the sequence ratio of a string with itself is 1, so
the weighted sum is `0.6 + 0.4 = 1`. -/
theorem C6_scorer_reflexive (q : Str) (hq : normalize_title q = q)
    (hne : q ≠ []) : fallbackScore q q = 1 := by
  have hcore : normCore q = q := by
    rw [normalize_title, if_neg hne] at hq
    exact hq
  have htok : splitWs q = normTokens q := by
    conv_lhs => rw [← hcore, normCore_eq_join]
    exact splitWs_joinTokens (normTokens q) (fun t ht =>
      ⟨(normTokens_good q t ht).1,
       fun c hc => word_not_space ((normTokens_good q t ht).2.1 c hc).1⟩)
  have hts : normTokens q ≠ [] := by
    intro h
    apply hne
    rw [← hcore, normCore_eq_join, h]
    rfl
  rw [fallbackScore, htok]
  have hSne : (normTokens q).toFinset ≠ ∅ := by
    cases h : normTokens q with
    | nil => exact absurd h hts
    | cons t ts => simp
  have hcard : (((normTokens q).toFinset ∪ (normTokens q).toFinset).card) ≠ 0 := by
    rw [Finset.union_self]
    simpa [Finset.card_eq_zero] using hSne
  rw [if_pos (Or.inl hSne), if_pos hcard, Finset.inter_self, Finset.union_self,
    ratioQ_self, div_self (Nat.cast_ne_zero.mpr (by simpa [Finset.union_self] using hcard))]
  norm_num

/-- Witness for claim C6: a concrete normalized title scores 1 against
itself. -/
theorem C6_scorer_reflexive_witness :
    normalize_title (String.toList "hobbit") = String.toList "hobbit" ∧
    String.toList "hobbit" ≠ [] ∧
    fallbackScore (String.toList "hobbit") (String.toList "hobbit") = 1 :=
  ⟨by decide, by decide,
   C6_scorer_reflexive (String.toList "hobbit") (by decide) (by decide)⟩

end GoodreadsEnricher
